import Mathlib

/-!
Verification development for the web-crawler repository.

The Python source is embedded shallowly: pure functions become Lean
functions over `List Char` / `String`, the SQLite-backed frontier becomes
explicit state passing over a queue of entries, and async operations are
modelled sequentially with their external effects (HTTP fetches, clock
reads) supplied as explicit oracle arguments.  Python `float` values
(priorities, timestamps, delays) are modelled as `Rat`, and Python `int`
as `Int`/`Nat`.
-/

namespace Crawler

/-! ### Basic character and string helpers (models of Python str operations) -/

def isAsciiAlpha (c : Char) : Bool :=
  ('a' ≤ c && c ≤ 'z') || ('A' ≤ c && c ≤ 'Z')

def isAsciiDigit (c : Char) : Bool :=
  '0' ≤ c && c ≤ '9'

/-- Characters allowed in a URL scheme by Python `urllib.parse`
(letters, digits, and the three punctuation marks). -/
def isSchemeChar (c : Char) : Bool :=
  isAsciiAlpha c || isAsciiDigit c || c = '+' || c = '-' || c = '.'

/-- ASCII lowercasing of one character (model of `str.lower` restricted to
ASCII, which is all the crawler's URLs use for schemes and hosts). -/
def lowerChar (c : Char) : Char :=
  if 'A' ≤ c && c ≤ 'Z' then Char.ofNat (c.toNat + 32) else c

def lowerStr (l : List Char) : List Char := l.map lowerChar

/-- Split a list at the first occurrence of the delimiter `d`.  Returns the
part before it and, when `d` occurs, the part after it. -/
def splitAtFirst (d : Char) : List Char → List Char × Option (List Char)
  | [] => ([], none)
  | c :: cs =>
    if c = d then ([], some cs)
    else
      let r := splitAtFirst d cs
      (c :: r.1, r.2)

/-- Split into pieces at every occurrence of `d` (model of Python
`str.split` with a one-character separator). -/
def splitSep (d : Char) : List Char → List (List Char)
  | [] => [[]]
  | c :: cs =>
    if c = d then [] :: splitSep d cs
    else
      match splitSep d cs with
      | [] => [[c]]
      | a :: as => (c :: a) :: as

/-- Model of Python `path.rstrip('/')`. -/
def dropTrailingSlashes (l : List Char) : List Char :=
  (l.reverse.dropWhile (fun c => c = '/')).reverse

/-- Model of the source expression `parsed.path.rstrip('/') or '/'`. -/
def normPath (l : List Char) : List Char :=
  let t := dropTrailingSlashes l
  if t = [] then ['/'] else t

/-! ### UTF-8 encoding and decoding

Models of the byte-level behaviour of Python's `quote_plus` /
`unquote_plus` (which encode `str` values through UTF-8). -/

def utf8EncodeChar (c : Char) : List Nat :=
  let n := c.toNat
  if n < 0x80 then [n]
  else if n < 0x800 then [0xC0 + n / 64, 0x80 + n % 64]
  else if n < 0x10000 then
    [0xE0 + n / 4096, 0x80 + (n / 64) % 64, 0x80 + n % 64]
  else
    [0xF0 + n / 262144, 0x80 + (n / 4096) % 64, 0x80 + (n / 64) % 64, 0x80 + n % 64]

def utf8EncodeList (l : List Char) : List Nat :=
  l.foldr (fun c acc => utf8EncodeChar c ++ acc) []

def replacementChar : Char := Char.ofNat 0xFFFD

def isContinuation (b : Nat) : Bool := 0x80 ≤ b && b < 0xC0

/-- UTF-8 decoding with replacement of invalid sequences (model of
`bytes.decode('utf-8', errors='replace')`; the exact replacement pattern
on invalid input is immaterial to the claims, which only ever decode
valid encodings).  The fuel argument (instantiated with the list length,
an upper bound on the number of decoded scalars) only makes the
recursion structural. -/
def utf8DecodeAux : Nat → List Nat → List Char
  | 0, _ => []
  | _ + 1, [] => []
  | f + 1, b :: bs =>
    if b < 0x80 then Char.ofNat b :: utf8DecodeAux f bs
    else if b < 0xC2 then replacementChar :: utf8DecodeAux f bs
    else if b < 0xE0 then
      match bs with
      | b1 :: bs1 =>
        if isContinuation b1 then
          Char.ofNat ((b - 0xC0) * 64 + (b1 - 0x80)) :: utf8DecodeAux f bs1
        else replacementChar :: utf8DecodeAux f bs
      | [] => [replacementChar]
    else if b < 0xF0 then
      match bs with
      | b1 :: b2 :: bs2 =>
        if isContinuation b1 && isContinuation b2 then
          Char.ofNat ((b - 0xE0) * 4096 + (b1 - 0x80) * 64 + (b2 - 0x80))
            :: utf8DecodeAux f bs2
        else replacementChar :: utf8DecodeAux f bs
      | _ => [replacementChar]
    else if b < 0xF5 then
      match bs with
      | b1 :: b2 :: b3 :: bs3 =>
        if isContinuation b1 && isContinuation b2 && isContinuation b3 then
          Char.ofNat ((b - 0xF0) * 262144 + (b1 - 0x80) * 4096 + (b2 - 0x80) * 64
              + (b3 - 0x80)) :: utf8DecodeAux f bs3
        else replacementChar :: utf8DecodeAux f bs
      | _ => [replacementChar]
    else replacementChar :: utf8DecodeAux f bs

def utf8Decode (l : List Nat) : List Char := utf8DecodeAux l.length l

/-! ### Percent-encoding (models of `quote_plus` / `unquote_plus`) -/

/-- The characters `quote` never escapes (Python `_ALWAYS_SAFE`, with the
empty `safe` parameter used by `urlencode`). -/
def isUrlSafe (c : Char) : Bool :=
  isAsciiAlpha c || isAsciiDigit c || c = '_' || c = '.' || c = '-' || c = '~'

def hexDigitUpper (n : Nat) : Char :=
  if n < 10 then Char.ofNat (48 + n) else Char.ofNat (55 + n)

def percentEncodeByte (b : Nat) : List Char :=
  ['%', hexDigitUpper (b / 16), hexDigitUpper (b % 16)]

/-- `quote_plus` on one character: safe characters pass through, space
becomes a plus, everything else is percent-encoded per UTF-8 byte. -/
def quotePlusChar (c : Char) : List Char :=
  if isUrlSafe c then [c]
  else if c = ' ' then ['+']
  else (utf8EncodeChar c).foldr (fun b acc => percentEncodeByte b ++ acc) []

def quotePlus (l : List Char) : List Char :=
  l.foldr (fun c acc => quotePlusChar c ++ acc) []

def hexVal (c : Char) : Option Nat :=
  if '0' ≤ c ∧ c ≤ '9' then some (c.toNat - 48)
  else if 'a' ≤ c ∧ c ≤ 'f' then some (c.toNat - 87)
  else if 'A' ≤ c ∧ c ≤ 'F' then some (c.toNat - 55)
  else none

/-- Byte stream produced by `unquote_plus` before UTF-8 decoding: percent
pairs become bytes, plus becomes a space byte, ordinary characters pass
through as their UTF-8 bytes, and a percent sign not followed by two hex
digits stays literal. -/
def unquoteBytesAux : Nat → List Char → List Nat
  | 0, _ => []
  | _ + 1, [] => []
  | f + 1, c :: rest =>
    if c = '%' then
      match rest with
      | c1 :: c2 :: rest2 =>
        match hexVal c1, hexVal c2 with
        | some hi, some lo => (hi * 16 + lo) :: unquoteBytesAux f rest2
        | _, _ => 37 :: unquoteBytesAux f rest
      | _ => 37 :: unquoteBytesAux f rest
    else if c = '+' then 32 :: unquoteBytesAux f rest
    else utf8EncodeChar c ++ unquoteBytesAux f rest

def unquoteBytes (l : List Char) : List Nat := unquoteBytesAux l.length l

def unquotePlus (l : List Char) : List Char := utf8Decode (unquoteBytes l)

/-! ### Query-string handling (models of `parse_qsl` / `urlencode`) -/

/-- Model of `urllib.parse.parse_qsl(qs)` with default arguments: split on
ampersands, skip empty pieces, skip pieces without an equals sign, skip
pieces with an empty value (`keep_blank_values=False`), and
percent-decode names and values. -/
def parseQsl (l : List Char) : List (List Char × List Char) :=
  (splitSep '&' l).foldr
    (fun piece acc =>
      if piece = [] then acc
      else
        match splitAtFirst '=' piece with
        | (_, none) => acc
        | (k, some v) => if v = [] then acc else (unquotePlus k, unquotePlus v) :: acc)
    []

def intercalateChar (d : Char) : List (List Char) → List Char
  | [] => []
  | [a] => a
  | a :: rest => a ++ d :: intercalateChar d rest

/-- Model of `urllib.parse.urlencode` on a list of pairs. -/
def urlencodeL (ps : List (List Char × List Char)) : List Char :=
  intercalateChar '&' (ps.map (fun p => quotePlus p.1 ++ '=' :: quotePlus p.2))

/-- Code-point lexicographic comparison of strings (model of Python
`str` ordering). -/
def leChars : List Char → List Char → Bool
  | [], _ => true
  | _ :: _, [] => false
  | a :: as, b :: bs =>
    if a.toNat < b.toNat then true
    else if b.toNat < a.toNat then false
    else leChars as bs

/-- Tuple ordering used by `sorted(query_params)`: compare names first,
then values. -/
def lePair (p q : List Char × List Char) : Bool :=
  if p.1 = q.1 then leChars p.2 q.2 else leChars p.1 q.1

/-- The ordering of `sorted` as a relation. -/
def lePairRel (p q : List Char × List Char) : Prop := lePair p q = true

instance : DecidableRel lePairRel := fun p q => by unfold lePairRel; infer_instance

/-- Model of Python `sorted` on the pair list: a stable sort with respect
to `lePair` (insertion sort is stable, hence extensionally equal to
Timsort on every input). -/
def sortPairs (ps : List (List Char × List Char)) : List (List Char × List Char) :=
  List.insertionSort lePairRel ps

/-! ### URL parsing (model of `urllib.parse.urlparse` / `urlunparse`) -/

structure URLParts where
  scheme : List Char
  netloc : List Char
  path : List Char
  params : List Char
  query : List Char
  fragment : List Char
deriving Repr, DecidableEq

def validScheme (pre : List Char) : Bool :=
  match pre with
  | [] => false
  | c :: cs => isAsciiAlpha c && (c :: cs).all isSchemeChar

/-- Scheme recognition of `urlsplit`: the text before the first colon is a
scheme when it is non-empty, starts with an ASCII letter and consists of
scheme characters only; `urlsplit` returns it lowercased. -/
def parseScheme (l : List Char) : List Char × List Char :=
  let pre := l.takeWhile (fun c => c ≠ ':')
  if pre.length < l.length ∧ validScheme pre then
    (lowerStr pre, l.drop (pre.length + 1))
  else ([], l)

/-- Netloc recognition of `urlsplit`: after a leading double slash, the
netloc extends to the next `/`, `?` or `#`. -/
def parseNetloc (l : List Char) : List Char × List Char :=
  match l with
  | '/' :: '/' :: rest =>
    let n := rest.takeWhile (fun c => c ≠ '/' && c ≠ '?' && c ≠ '#')
    (n, rest.drop n.length)
  | _ => ([], l)

def lastSegment (l : List Char) : List Char :=
  (l.reverse.takeWhile (fun c => c ≠ '/')).reverse

def beforeLastSegment (l : List Char) : List Char :=
  (l.reverse.dropWhile (fun c => c ≠ '/')).reverse

/-- Model of `urllib.parse._splitparams`: path parameters are whatever
follows the first semicolon in the last path segment. -/
def splitParams (l : List Char) : List Char × List Char :=
  match splitAtFirst ';' (lastSegment l) with
  | (_, none) => (l, [])
  | (a, some b) => (beforeLastSegment l ++ a, b)

/-- Model of `urllib.parse.urlparse` restricted to the six components the
crawler uses.  The fragment is split off first; this is equivalent to
CPython's order of operations because the netloc scan also stops at a
hash sign and a scheme candidate containing a hash sign is never valid. -/
def urlparseL (l : List Char) : URLParts :=
  let s0 := splitAtFirst '#' l
  let fragment := s0.2.getD []
  let s1 := parseScheme s0.1
  let s2 := parseNetloc s1.2
  let s3 := splitAtFirst '?' s2.2
  let query := s3.2.getD []
  let s4 := splitParams s3.1
  ⟨s1.1, s2.1, s4.1, s4.2, query, fragment⟩

/-- Model of `urllib.parse.urlunsplit`. -/
def urlunsplitL (scheme netloc url query fragment : List Char) : List Char :=
  let u1 :=
    if netloc ≠ [] ∨ url.take 2 = ['/', '/'] then
      '/' :: '/' :: netloc ++ (if url ≠ [] ∧ url.head? ≠ some '/' then '/' :: url else url)
    else url
  let u2 := if scheme ≠ [] then scheme ++ ':' :: u1 else u1
  let u3 := if query ≠ [] then u2 ++ '?' :: query else u2
  if fragment ≠ [] then u3 ++ '#' :: fragment else u3

/-- Model of `urllib.parse.urlunparse`: params are glued back onto the
path with a semicolon before unsplitting. -/
def urlunparseL (p : URLParts) : List Char :=
  let url := if p.params ≠ [] then p.path ++ ';' :: p.params else p.path
  urlunsplitL p.scheme p.netloc url p.query p.fragment

/-! ### `normalize_url` (src/crawler/crawl.py lines 19-38) -/

/-- Embedding of `normalize_url`: sort the query parameters, strip a
trailing slash from a non-root path, lowercase scheme and host, drop the
fragment. -/
def normalizeL (l : List Char) : List Char :=
  let parsed := urlparseL l
  let sortedQuery := urlencodeL (sortPairs (parseQsl parsed.query))
  let path := normPath parsed.path
  urlunparseL ⟨lowerStr parsed.scheme, lowerStr parsed.netloc, path, parsed.params, sortedQuery, []⟩

def normalize_url (s : String) : String := String.mk (normalizeL s.data)

/-- Embedding of `urlparse(url).netloc`, used by `Frontier.add` and
`DomainManager._get_domain`. -/
def netlocOf (s : String) : String := String.mk (urlparseL s.data).netloc

/-! ### Frontier (src/crawler/frontier.py)

The SQLite queue table becomes a list of entries in insertion (rowid)
order; the Bloom filter becomes an exact seen-list (no false negatives,
and false positives are not exercised by any claim).  `ORDER BY priority
DESC, added_at ASC LIMIT 1` becomes a fold that keeps the first entry in
rowid order among the priority-then-time maxima, matching SQLite's
behaviour on this table. -/

inductive EntryStatus
  | pending
  | processing
  | done
  | failed
deriving DecidableEq, Repr

/-- `CrawlTask` dataclass.  `added_at` is taken as given; the
`__post_init__` wall-clock default is an external effect supplied by the
caller in this model. -/
structure CrawlTask where
  url : String
  depth : Int
  priority : Rat := 1
  source_url : Option String := none
  added_at : Rat := 0
deriving DecidableEq, Repr

/-- One row of the `queue` table. -/
structure QueueEntry where
  url : String
  domain : String
  depth : Int
  priority : Rat
  source_url : Option String
  added_at : Rat
  status : EntryStatus
deriving DecidableEq, Repr

structure FrontierState where
  seen : List String
  queue : List QueueEntry
deriving DecidableEq, Repr

def FrontierState.empty : FrontierState := ⟨[], []⟩

/-- `Frontier.add`: reject when the raw `task.url` is in the seen set,
otherwise record it as seen and insert a pending row unless the UNIQUE
constraint on `url` fires (in which case the seen-set update persists, as
in the source where `seen.add` precedes the failing INSERT). -/
def Frontier.add (t : CrawlTask) (s : FrontierState) : Bool × FrontierState :=
  if t.url ∈ s.seen then (false, s)
  else
    let seen1 := s.seen ++ [t.url]
    if s.queue.any (fun e => e.url == t.url) then (false, ⟨seen1, s.queue⟩)
    else
      (true, ⟨seen1, s.queue ++
        [⟨t.url, netlocOf t.url, t.depth, t.priority, t.source_url, t.added_at, .pending⟩]⟩)

/-- `Frontier.add_many`. -/
def Frontier.add_many (ts : List CrawlTask) (s : FrontierState) : Nat × FrontierState :=
  ts.foldl
    (fun acc t =>
      let r := Frontier.add t acc.2
      (acc.1 + (if r.1 then 1 else 0), r.2))
    (0, s)

/-- The WHERE clause of `get_next`: status pending and, when a non-empty
domain string is supplied (Python truthiness), a matching domain. -/
def matchesDomain (d : Option String) (e : QueueEntry) : Bool :=
  match d with
  | none => true
  | some dd => if dd.isEmpty then true else e.domain == dd

/-- `e` strictly precedes `b` in `ORDER BY priority DESC, added_at ASC`. -/
def betterEntry (e b : QueueEntry) : Prop :=
  b.priority < e.priority ∨ (e.priority = b.priority ∧ e.added_at < b.added_at)

instance (e b : QueueEntry) : Decidable (betterEntry e b) := by
  unfold betterEntry; infer_instance

/-- First row of the ordered candidate list: the earliest entry in rowid
order that no other candidate strictly precedes. -/
def pickBest : List QueueEntry → Option QueueEntry
  | [] => none
  | e :: rest =>
    match pickBest rest with
    | none => some e
    | some b => if betterEntry b e then some b else some e

/-- `Frontier.get_next`: select one pending row (optionally filtered by
domain), flip its status to processing, and return it as a task. -/
def Frontier.get_next (d : Option String) (s : FrontierState) :
    Option CrawlTask × FrontierState :=
  match pickBest (s.queue.filter (fun e => e.status == .pending && matchesDomain d e)) with
  | none => (none, s)
  | some e =>
    (some ⟨e.url, e.depth, e.priority, e.source_url, e.added_at⟩,
     ⟨s.seen, s.queue.map (fun x => if x.url = e.url then { x with status := .processing } else x)⟩)

/-- `Frontier.mark_done`: `UPDATE queue SET status='done' WHERE url=?`. -/
def Frontier.mark_done (u : String) (s : FrontierState) : FrontierState :=
  ⟨s.seen, s.queue.map (fun x => if x.url = u then { x with status := .done } else x)⟩

/-- `Frontier.mark_failed`: `UPDATE queue SET status='failed' WHERE url=?`. -/
def Frontier.mark_failed (u : String) (s : FrontierState) : FrontierState :=
  ⟨s.seen, s.queue.map (fun x => if x.url = u then { x with status := .failed } else x)⟩

/-- `Frontier.requeue_failed`: bulk failed-to-pending, returning the
number of rows changed. -/
def Frontier.requeue_failed (s : FrontierState) : Nat × FrontierState :=
  ((s.queue.filter (fun x => x.status == .failed)).length,
   ⟨s.seen, s.queue.map (fun x => if x.status = .failed then { x with status := .pending } else x)⟩)

def Frontier.pending_count (s : FrontierState) : Nat :=
  (s.queue.filter (fun x => x.status == .pending)).length

def Frontier.is_seen (u : String) (s : FrontierState) : Bool :=
  s.seen.contains u

/-- Status of the row with the given url, if present (inspection helper
corresponding to a SELECT on the queue table). -/
def Frontier.statusOf (u : String) (s : FrontierState) : Option EntryStatus :=
  (s.queue.find? (fun x => x.url == u)).map (·.status)

/-! ### DomainManager (src/crawler/domain_manager.py)

The external `RobotExclusionRulesParser` is modelled as an abstract pair
of functions (allow verdicts and crawl-delay lookup); robots.txt HTTP
fetches and clock reads are oracle arguments. -/

structure RobotsRules where
  allowVerdict : String → String → Bool
  crawlDelayOf : String → Option Rat

structure DomainState where
  domain : String
  robots_rules : Option RobotsRules
  robots_fetched : Bool
  robots_fetched_at : Rat
  last_request_time : Rat
  request_count : Nat
  error_count : Nat
  crawl_delay : Rat

structure DMState where
  user_agent : String
  default_delay : Rat
  respect_robots : Bool
  max_retries : Nat
  robots_cache_ttl : Rat
  domains : List (String × DomainState)

/-- Outcome of one robots.txt fetch: an exception, or a response with a
status code together with the rules its body would parse to. -/
inductive RobotsFetchResult
  | fetchError
  | response (status : Int) (rules : RobotsRules)

def DM.lookup (dm : DMState) (d : String) : Option DomainState :=
  (dm.domains.find? (fun p => p.1 == d)).map (·.2)

def DM.freshState (dm : DMState) (d : String) : DomainState :=
  ⟨d, none, false, 0, 0, 0, 0, dm.default_delay⟩

/-- `DomainManager._fetch_robots` applied to one domain state: on a 200
response install the parsed rules and raise the crawl delay when the
rules declare a truthy one; any other outcome leaves the rules alone.
Either way the fetch is recorded with its timestamp. -/
def DM.fetchRobotsUpdate (dm : DMState) (st : DomainState) (res : RobotsFetchResult)
    (now : Rat) : DomainState :=
  match res with
  | .fetchError => { st with robots_fetched := true, robots_fetched_at := now }
  | .response code rules =>
    if code = 200 then
      let st1 := { st with robots_rules := some rules }
      let st2 :=
        match rules.crawlDelayOf dm.user_agent with
        | some dl => if dl ≠ 0 then { st1 with crawl_delay := max dl dm.default_delay } else st1
        | none => st1
      { st2 with robots_fetched := true, robots_fetched_at := now }
    else { st with robots_fetched := true, robots_fetched_at := now }

def DM.cacheValid (dm : DMState) (st : DomainState) (now : Rat) : Bool :=
  st.robots_fetched && decide (now - st.robots_fetched_at < dm.robots_cache_ttl)

def DM.setDomain (dm : DMState) (d : String) (st : DomainState) : DMState :=
  { dm with domains := dm.domains.map (fun p => if p.1 == d then (p.1, st) else p) }

/-- `DomainManager.get_state`: create the domain state lazily, then fetch
robots.txt when robots are respected and the cache is invalid. -/
def DM.get_state (u : String) (res : RobotsFetchResult) (now : Rat) (dm : DMState) :
    DomainState × DMState :=
  let d := netlocOf u
  let dm1 :=
    if dm.domains.any (fun p => p.1 == d) then dm
    else { dm with domains := dm.domains ++ [(d, DM.freshState dm d)] }
  let st := (DM.lookup dm1 d).getD (DM.freshState dm d)
  if dm1.respect_robots && !DM.cacheValid dm1 st now then
    let st1 := DM.fetchRobotsUpdate dm1 st res now
    (st1, DM.setDomain dm1 d st1)
  else (st, dm1)

/-- `DomainManager.is_allowed`. -/
def DM.is_allowed (u : String) (res : RobotsFetchResult) (now : Rat) (dm : DMState) :
    Bool × DMState :=
  if !dm.respect_robots then (true, dm)
  else
    let r := DM.get_state u res now dm
    match r.1.robots_rules with
    | none => (true, r.2)
    | some rules => (rules.allowVerdict dm.user_agent u, r.2)

/-- `DomainManager.wait_for_rate_limit` as a state update: the sleep
itself is real time and outside the model; `now2` is the clock value
written back as the new `last_request_time`. -/
def DM.rateLimitUpdate (u : String) (res : RobotsFetchResult) (now now2 : Rat)
    (dm : DMState) : DMState :=
  let r := DM.get_state u res now dm
  DM.setDomain r.2 (netlocOf u)
    { r.1 with last_request_time := now2, request_count := r.1.request_count + 1 }

/-- `DomainManager.record_error`: increment the counter only when the
domain already has a state. -/
def DM.record_error (u : String) (dm : DMState) : DMState :=
  let d := netlocOf u
  if dm.domains.any (fun p => p.1 == d) then
    { dm with
      domains := dm.domains.map
        (fun p => if p.1 == d then (p.1, { p.2 with error_count := p.2.error_count + 1 }) else p) }
  else dm

/-- `DomainManager.should_retry`. -/
def DM.should_retry (u : String) (dm : DMState) : Bool :=
  match DM.lookup dm (netlocOf u) with
  | none => true
  | some st => decide (st.error_count < dm.max_retries)

/-! ### CrawlerEngine (src/crawler/crawl.py)

`_process_url` becomes a pure transition on (frontier, domain-manager)
state.  The fetch result, the robots.txt fetch result and the clock
values are oracle arguments; `extract_links` (a regex scan whose
internals no claim concerns) is an explicit function argument. -/

structure EngineConfig where
  start_domain : String
  max_pages : Nat
  max_depth : Int
  same_domain : Bool

/-- Typed fetch outcome: success, or one of the exception classes
`_process_url` catches. -/
inductive FetchOutcome
  | success (finalUrl : String) (status : Int) (text : String)
  | timeout
  | connectError
  | httpStatusError (code : Int)
  | otherError (msg : String)

/-- A record appended to `self.results`: a page record on success, or an
error record with the `retryable` tag. -/
inductive CrawlRecord
  | page (url : String) (status : Int) (contentLength : Nat) (depth : Int)
      (sourceUrl : Option String)
  | fail (url : String) (error : String) (retryable : Bool) (depth : Int)
deriving DecidableEq, Repr

def CrawlRecord.retryableTag : CrawlRecord → Bool
  | .page .. => false
  | .fail _ _ r _ => r

def isValidUrl (cfg : EngineConfig) (u : String) : Bool :=
  if cfg.same_domain then netlocOf u == cfg.start_domain else true

/-- `CrawlerEngine._process_url`.  Returns the optional result record and
the updated frontier and domain-manager states.  `robotsRes` feeds the
robots.txt fetch in `is_allowed`, `now`/`now2` are clock reads,
`linkTime` is the `added_at` the discovered tasks get from their
constructor, and `outcome` is the fetch result. -/
def process_url (cfg : EngineConfig) (extractFn : String → String → List String)
    (robotsRes : RobotsFetchResult) (now now2 linkTime : Rat)
    (outcome : FetchOutcome) (t : CrawlTask) (fr : FrontierState) (dm : DMState) :
    Option CrawlRecord × FrontierState × DMState :=
  let url := t.url
  let ra := DM.is_allowed url robotsRes now dm
  if !ra.1 then (none, Frontier.mark_done url fr, ra.2)
  else
    let dm2 := DM.rateLimitUpdate url robotsRes now now2 ra.2
    match outcome with
    | .success finalUrl status text =>
      let fr1 :=
        if t.depth < cfg.max_depth then
          let links := extractFn text finalUrl
          let newTasks := links.filterMap (fun link =>
            if isValidUrl cfg link && !(Frontier.is_seen link fr) then
              some ⟨link, t.depth + 1, 1, some url, linkTime⟩
            else none)
          (Frontier.add_many newTasks fr).2
        else fr
      (some (.page finalUrl status text.length t.depth t.source_url),
       Frontier.mark_done url fr1, dm2)
    | .timeout =>
      (some (.fail url "timeout" true t.depth),
       Frontier.mark_failed url fr, DM.record_error url dm2)
    | .connectError =>
      (some (.fail url "connection_error" true t.depth),
       Frontier.mark_failed url fr, DM.record_error url dm2)
    | .httpStatusError code =>
      if 400 ≤ code ∧ code < 500 then
        (some (.fail url ("http_" ++ toString code) (decide (500 ≤ code)) t.depth),
         Frontier.mark_done url fr, dm2)
      else
        (some (.fail url ("http_" ++ toString code) (decide (500 ≤ code)) t.depth),
         Frontier.mark_failed url fr, DM.record_error url dm2)
    | .otherError msg =>
      let dm3 := DM.record_error url dm2
      if DM.should_retry url dm3 then
        (some (.fail url msg false t.depth), Frontier.mark_failed url fr, dm3)
      else
        (some (.fail url msg false t.depth), Frontier.mark_done url fr, dm3)

structure EngineState where
  frontier : FrontierState
  dm : DMState
  results : List CrawlRecord
  pages_crawled : Nat

/-- `CrawlerEngine._worker` run sequentially (asyncio interleaves workers
cooperatively on one thread; one worker's loop is modelled verbatim).
`fuel` bounds the iteration count; every claim about the loop supplies
enough fuel for the loop to reach its own exit condition.  The oracles
assign each url its fetch outcome and robots fetch result; clock reads
are fixed at zero, which no claim observes. -/
def worker (cfg : EngineConfig) (extractFn : String → String → List String)
    (robotsResF : String → RobotsFetchResult) (outcomeF : String → FetchOutcome) :
    Nat → EngineState → EngineState
  | 0, st => st
  | fuel + 1, st =>
    if st.pages_crawled ≥ cfg.max_pages then st
    else
      match Frontier.get_next none st.frontier with
      | (none, fr1) =>
        if Frontier.pending_count fr1 = 0 then { st with frontier := fr1 }
        else worker cfg extractFn robotsResF outcomeF fuel { st with frontier := fr1 }
      | (some t, fr1) =>
        let r := process_url cfg extractFn (robotsResF t.url) 0 0 0 (outcomeF t.url) t fr1 st.dm
        match r.1 with
        | some rec1 =>
          worker cfg extractFn robotsResF outcomeF fuel
            ⟨r.2.1, r.2.2, st.results ++ [rec1], st.pages_crawled + 1⟩
        | none =>
          worker cfg extractFn robotsResF outcomeF fuel
            ⟨r.2.1, r.2.2, st.results, st.pages_crawled⟩

/-! ### Concrete example states used by witnesses and counterexamples -/

/-- Domain manager configured as in `CrawlerEngine.__init__` defaults. -/
def dmDefault : DMState := ⟨"WebCrawler/0.1", 1, true, 3, 3600, []⟩

/-- Domain manager with robots checking disabled. -/
def dmNoRobots : DMState := ⟨"WebCrawler/0.1", 1, false, 3, 3600, []⟩

def cfgSmall : EngineConfig := ⟨"a", 2, 3, true⟩

def noLinks : String → String → List String := fun _ _ => []

def robotsErrOracle : String → RobotsFetchResult := fun _ => .fetchError

def taskA : CrawlTask := ⟨"http://a/x", 0, 1, none, 0⟩

/-- Frontier holding a single task. -/
def frOne : FrontierState := (Frontier.add taskA FrontierState.empty).2

/-- Frontier holding ten pending same-domain tasks. -/
def frTen : FrontierState :=
  (Frontier.add_many
    [⟨"http://a/0", 0, 1, none, 0⟩, ⟨"http://a/1", 0, 1, none, 1⟩,
     ⟨"http://a/2", 0, 1, none, 2⟩, ⟨"http://a/3", 0, 1, none, 3⟩,
     ⟨"http://a/4", 0, 1, none, 4⟩, ⟨"http://a/5", 0, 1, none, 5⟩,
     ⟨"http://a/6", 0, 1, none, 6⟩, ⟨"http://a/7", 0, 1, none, 7⟩,
     ⟨"http://a/8", 0, 1, none, 8⟩, ⟨"http://a/9", 0, 1, none, 9⟩]
    FrontierState.empty).2

/-- A frontier whose single entry has already been marked done (built by
the public operations only). -/
def frDone : FrontierState :=
  Frontier.mark_done "http://a/x" (Frontier.get_next none frOne).2

/-! ## Supporting lemmas -/

theorem statusOf_map (u : String) (seen : List String) (q : List QueueEntry)
    (g : QueueEntry → QueueEntry) (hg : ∀ x, (g x).url = x.url) :
    Frontier.statusOf u ⟨seen, q.map g⟩ =
      (q.find? (fun x => x.url == u)).map (fun x => (g x).status) := by
  unfold Frontier.statusOf
  induction q with
  | nil => rfl
  | cons x xs ih =>
    simp only [List.map_cons, List.find?_cons, hg]
    cases hx : (x.url == u) with
    | true => rfl
    | false => simpa using ih

theorem find?_append_of_some {α : Type} (p : α → Bool) (l1 l2 : List α) (a : α)
    (h : l1.find? p = some a) : (l1 ++ l2).find? p = some a := by
  induction l1 with
  | nil => simp at h
  | cons x xs ih =>
    simp only [List.find?_cons] at h ⊢
    cases hx : p x with
    | true => simpa [hx] using h
    | false => rw [hx] at h; simpa [hx] using ih h

theorem find?_append_of_none {α : Type} (p : α → Bool) (l1 l2 : List α)
    (h : l1.find? p = none) : (l1 ++ l2).find? p = l2.find? p := by
  induction l1 with
  | nil => simp
  | cons x xs ih =>
    simp only [List.find?_cons] at h ⊢
    cases hx : p x with
    | true => simp [hx] at h
    | false => rw [hx] at h; simpa [hx] using ih h

theorem nodup_url_inj {q : List QueueEntry} (hnd : (q.map (·.url)).Nodup)
    {a b : QueueEntry} (ha : a ∈ q) (hb : b ∈ q) (hab : a.url = b.url) : a = b :=
  List.inj_on_of_nodup_map hnd ha hb hab

theorem statusOf_isSome_elim (u : String) (s : FrontierState)
    (h : (Frontier.statusOf u s).isSome = true) :
    ∃ e ∈ s.queue, s.queue.find? (fun x => x.url == u) = some e ∧ e.url = u := by
  unfold Frontier.statusOf at h
  cases hf : s.queue.find? (fun x => x.url == u) with
  | none => rw [hf] at h; simp at h
  | some e =>
    refine ⟨e, List.mem_of_find?_eq_some hf, rfl, ?_⟩
    have := List.find?_some hf
    simpa using this

theorem statusOf_mark_failed_self (u : String) (s : FrontierState)
    (h : (Frontier.statusOf u s).isSome = true) :
    Frontier.statusOf u (Frontier.mark_failed u s) = some .failed := by
  obtain ⟨e, _, hf, hu⟩ := statusOf_isSome_elim u s h
  unfold Frontier.mark_failed
  rw [statusOf_map u s.seen s.queue _ (by intro x; by_cases hx : x.url = u <;> simp [hx])]
  rw [hf]
  simp [hu]

theorem statusOf_mark_done_self (u : String) (s : FrontierState)
    (h : (Frontier.statusOf u s).isSome = true) :
    Frontier.statusOf u (Frontier.mark_done u s) = some .done := by
  obtain ⟨e, _, hf, hu⟩ := statusOf_isSome_elim u s h
  unfold Frontier.mark_done
  rw [statusOf_map u s.seen s.queue _ (by intro x; by_cases hx : x.url = u <;> simp [hx])]
  rw [hf]
  simp [hu]

theorem pickBest_eq_none {l : List QueueEntry} : pickBest l = none ↔ l = [] := by
  cases l with
  | nil => simp [pickBest]
  | cons e rest =>
    simp only [pickBest]
    cases pickBest rest with
    | none => simp
    | some b => by_cases hb : betterEntry b e <;> simp [hb]

theorem pickBest_mem {l : List QueueEntry} {e : QueueEntry} (h : pickBest l = some e) :
    e ∈ l := by
  induction l with
  | nil => simp [pickBest] at h
  | cons x xs ih =>
    simp only [pickBest] at h
    cases hp : pickBest xs with
    | none => rw [hp] at h; simp at h; simp [h]
    | some b =>
      rw [hp] at h
      by_cases hb : betterEntry b x
      · simp [hb] at h; subst h; exact List.mem_cons_of_mem _ (ih hp)
      · simp [hb] at h; simp [h]

theorem betterEntry_irrefl (e : QueueEntry) : ¬ betterEntry e e := by
  unfold betterEntry
  push_neg
  exact ⟨le_refl _, fun _ => le_refl _⟩

theorem betterEntry_asymm {a b : QueueEntry} (h : betterEntry a b) : ¬ betterEntry b a := by
  unfold betterEntry at *
  rcases h with h | ⟨h1, h2⟩
  · push_neg
    exact ⟨le_of_lt h, fun he => absurd (he ▸ h) (lt_irrefl _)⟩
  · push_neg
    exact ⟨le_of_eq h1.symm, fun _ => le_of_lt h2⟩

theorem not_betterEntry_trans {x b e : QueueEntry}
    (hxb : ¬ betterEntry x b) (hbe : ¬ betterEntry b e) : ¬ betterEntry x e := by
  unfold betterEntry at *
  push_neg at hxb hbe ⊢
  obtain ⟨h1, h2⟩ := hxb
  obtain ⟨h3, h4⟩ := hbe
  constructor
  · exact le_trans h1 h3
  · intro hxe
    have hbx : x.priority = b.priority := le_antisymm h1 (by rw [hxe]; exact h3)
    have hbe2 : b.priority = e.priority := by rw [← hbx, hxe]
    exact le_trans (h4 hbe2) (h2 hbx)

theorem pickBest_max {l : List QueueEntry} : ∀ {e : QueueEntry}, pickBest l = some e →
    ∀ x ∈ l, ¬ betterEntry x e := by
  induction l with
  | nil => intro e h; simp [pickBest] at h
  | cons y ys ih =>
    intro e h x hx
    simp only [pickBest] at h
    cases hp : pickBest ys with
    | none =>
      rw [hp] at h
      simp at h
      subst h
      rcases List.mem_cons.mp hx with rfl | hx'
      · exact betterEntry_irrefl _
      · rw [pickBest_eq_none.mp hp] at hx'; simp at hx'
    | some b =>
      rw [hp] at h
      by_cases hb : betterEntry b y
      · simp [hb] at h
        subst h
        rcases List.mem_cons.mp hx with rfl | hx'
        · exact betterEntry_asymm hb
        · exact ih hp x hx'
      · simp [hb] at h
        subst h
        rcases List.mem_cons.mp hx with rfl | hx'
        · exact betterEntry_irrefl _
        · exact not_betterEntry_trans (ih hp x hx') hb

theorem find?_url_of_mem {q : List QueueEntry} (hnd : (q.map (·.url)).Nodup)
    {e : QueueEntry} (he : e ∈ q) : q.find? (fun x => x.url == e.url) = some e := by
  induction q with
  | nil => simp at he
  | cons y ys ih =>
    rw [List.map_cons, List.nodup_cons] at hnd
    rcases List.mem_cons.mp he with rfl | hm
    · simp [List.find?_cons]
    · have hyne : (y.url == e.url) = false := by
        simp only [beq_eq_false_iff_ne, ne_eq]
        intro hc
        exact hnd.1 (hc ▸ List.mem_map_of_mem (·.url) hm)
      rw [List.find?_cons, hyne]
      exact ih hnd.2 hm

theorem statusOf_unique {s : FrontierState} (hnd : (s.queue.map (·.url)).Nodup)
    {u : String} {c : EntryStatus} (h : Frontier.statusOf u s = some c) :
    ∀ x ∈ s.queue, x.url = u → x.status = c := by
  intro x hx hxu
  have hf : s.queue.find? (fun y => y.url == x.url) = some x := find?_url_of_mem hnd hx
  unfold Frontier.statusOf at h
  rw [hxu] at hf
  rw [hf] at h
  simpa using h

theorem get_next_some_elim {d : Option String} {s : FrontierState} {t : CrawlTask}
    {s1 : FrontierState} (h : Frontier.get_next d s = (some t, s1)) :
    ∃ e, pickBest (s.queue.filter
        (fun x => x.status == EntryStatus.pending && matchesDomain d x)) = some e
      ∧ t = ⟨e.url, e.depth, e.priority, e.source_url, e.added_at⟩
      ∧ s1 = ⟨s.seen, s.queue.map
          (fun x => if x.url = e.url then { x with status := EntryStatus.processing } else x)⟩ := by
  unfold Frontier.get_next at h
  cases hp : pickBest (s.queue.filter
      (fun x => x.status == EntryStatus.pending && matchesDomain d x)) with
  | none => rw [hp] at h; simp at h
  | some e =>
    rw [hp] at h
    simp only [Prod.mk.injEq, Option.some.injEq] at h
    exact ⟨e, rfl, h.1.symm, h.2.symm⟩

theorem get_next_none_elim {d : Option String} {s : FrontierState} {s1 : FrontierState}
    (h : Frontier.get_next d s = (none, s1)) :
    s1 = s ∧ s.queue.filter (fun x => x.status == EntryStatus.pending && matchesDomain d x)
      = [] := by
  unfold Frontier.get_next at h
  cases hp : pickBest (s.queue.filter
      (fun x => x.status == EntryStatus.pending && matchesDomain d x)) with
  | none =>
    rw [hp] at h
    simp only [Prod.mk.injEq] at h
    exact ⟨h.2.symm, pickBest_eq_none.mp hp⟩
  | some e => rw [hp] at h; simp at h

/-- Helper: a URL currently `processing` is not returned by `get_next`. -/
theorem get_next_not_processing {s : FrontierState} (d : Option String) (u : String)
    (hnd : (s.queue.map (·.url)).Nodup)
    (hproc : Frontier.statusOf u s = some .processing) :
    ∀ t s1, Frontier.get_next d s = (some t, s1) → t.url ≠ u := by
  intro t s1 h
  obtain ⟨e, hp, ht, _⟩ := get_next_some_elim h
  have hmem := pickBest_mem hp
  have he : e ∈ s.queue := (List.mem_filter.mp hmem).1
  have hpend : e.status = .pending := by
    have := (List.mem_filter.mp hmem).2
    simp at this
    exact this.1
  intro hc
  have heu : e.url = u := by rw [ht] at hc; exact hc
  have := statusOf_unique hnd hproc e he heu
  rw [hpend] at this
  simp at this

theorem urls_map_status (q : List QueueEntry) (g : QueueEntry → QueueEntry)
    (hg : ∀ x, (g x).url = x.url) : (q.map g).map (·.url) = q.map (·.url) := by
  rw [List.map_map]
  exact List.map_congr_left (fun x _ => hg x)

theorem is_allowed_no_robots (u : String) (res : RobotsFetchResult) (now : Rat)
    (dm : DMState) (h : dm.respect_robots = false) :
    DM.is_allowed u res now dm = (true, dm) := by
  unfold DM.is_allowed
  simp [h]

theorem get_state_respect (u : String) (res : RobotsFetchResult) (now : Rat)
    (dm : DMState) : ((DM.get_state u res now dm).2).respect_robots = dm.respect_robots := by
  simp only [DM.get_state, DM.setDomain]
  split <;> split <;> rfl

theorem rateLimitUpdate_respect (u : String) (res : RobotsFetchResult) (now now2 : Rat)
    (dm : DMState) :
    (DM.rateLimitUpdate u res now now2 dm).respect_robots = dm.respect_robots := by
  unfold DM.rateLimitUpdate DM.setDomain
  exact get_state_respect u res now dm

theorem process_url_success_simple (cfg : EngineConfig)
    (extractFn : String → String → List String) (res : RobotsFetchResult)
    (now now2 lt : Rat) (fu : String) (stc : Int) (txt : String) (t : CrawlTask)
    (fr : FrontierState) (dm : DMState)
    (hrr : dm.respect_robots = false) (hext : ∀ a b, extractFn a b = []) :
    process_url cfg extractFn res now now2 lt (.success fu stc txt) t fr dm
      = (some (.page fu stc txt.length t.depth t.source_url),
         Frontier.mark_done t.url fr, DM.rateLimitUpdate t.url res now now2 dm) := by
  simp only [process_url]
  rw [is_allowed_no_robots _ _ _ _ hrr]
  simp [hext, Frontier.add_many]

theorem countP_flip_unique (q : List QueueEntry) (e : QueueEntry)
    (he : e ∈ q) (hpend : e.status = .pending) (hnd : (q.map (·.url)).Nodup) :
    ((q.map (fun x => if x.url = e.url then { x with status := EntryStatus.processing }
        else x)).filter (fun x => x.status == EntryStatus.pending)).length + 1
      = (q.filter (fun x => x.status == EntryStatus.pending)).length := by
  induction q with
  | nil => simp at he
  | cons y ys ih =>
    rw [List.map_cons, List.nodup_cons] at hnd
    rcases List.mem_cons.mp he with rfl | hm
    · have hne : ∀ x ∈ ys, ¬ x.url = e.url := by
        intro x hx hc
        exact hnd.1 (hc ▸ List.mem_map_of_mem (·.url) hx)
      have hmap : ys.map (fun x => if x.url = e.url then
          { x with status := EntryStatus.processing } else x) = ys := by
        have h1 : ys.map (fun x => if x.url = e.url then
            { x with status := EntryStatus.processing } else x) = ys.map id :=
          List.map_congr_left (fun x hx => by simp [hne x hx])
        rw [h1, List.map_id]
      rw [List.map_cons, hmap, List.filter_cons, List.filter_cons]
      simp [hpend]
    · have hyne : ¬ y.url = e.url := by
        intro hc
        exact hnd.1 (hc ▸ List.mem_map_of_mem (·.url) hm)
      have hih := ih hm hnd.2
      rw [List.map_cons, List.filter_cons, List.filter_cons]
      simp only [hyne, if_false]
      cases hy : (y.status == EntryStatus.pending)
      · simpa [hy] using hih
      · simp only [hy, if_true, List.length_cons]
        omega

theorem countP_status_no_pending (q : List QueueEntry) (u : String) (c : EntryStatus)
    (hc : (c == EntryStatus.pending) = false)
    (hnp : ∀ x ∈ q, x.url = u → (x.status == EntryStatus.pending) = false) :
    ((q.map (fun x => if x.url = u then { x with status := c } else x)).filter
        (fun x => x.status == EntryStatus.pending)).length
      = (q.filter (fun x => x.status == EntryStatus.pending)).length := by
  induction q with
  | nil => rfl
  | cons y ys ih =>
    have hys := ih (fun x hx => hnp x (List.mem_cons_of_mem _ hx))
    rw [List.map_cons, List.filter_cons, List.filter_cons]
    by_cases hy : y.url = u
    · have h1 : (y.status == EntryStatus.pending) = false := hnp y (List.mem_cons_self _ _) hy
      simp only [hy, if_true, h1, hc, Bool.false_eq_true, if_false]
      exact hys
    · simp only [hy, if_false]
      cases hyp : (y.status == EntryStatus.pending)
      · simpa [hyp] using hys
      · simp only [hyp, if_true, List.length_cons]
        omega

theorem get_next_some_pending {s : FrontierState} {t : CrawlTask} {s1 : FrontierState}
    (hnd : (s.queue.map (·.url)).Nodup)
    (h : Frontier.get_next none s = (some t, s1)) :
    Frontier.pending_count s1 + 1 = Frontier.pending_count s
    ∧ s1.queue.map (·.url) = s.queue.map (·.url)
    ∧ Frontier.statusOf t.url s1 = some .processing
    ∧ s1.seen = s.seen := by
  obtain ⟨e, hp, ht, hs1⟩ := get_next_some_elim h
  have hmem := pickBest_mem hp
  have he : e ∈ s.queue := (List.mem_filter.mp hmem).1
  have hpend : e.status = .pending := by
    have := (List.mem_filter.mp hmem).2
    simp at this
    exact this.1
  refine ⟨?_, ?_, ?_, by rw [hs1]⟩
  · rw [hs1]
    unfold Frontier.pending_count
    exact countP_flip_unique s.queue e he hpend hnd
  · rw [hs1]
    exact urls_map_status _ _ (fun x => by by_cases hx : x.url = e.url <;> simp [hx])
  · have hurl : t.url = e.url := by rw [ht]
    rw [hs1, hurl]
    rw [statusOf_map e.url s.seen s.queue
      (fun x => if x.url = e.url then { x with status := EntryStatus.processing } else x)
      (by intro x; by_cases hx : x.url = e.url <;> simp [hx])]
    rw [find?_url_of_mem hnd he]
    simp

theorem get_next_none_pending_zero {s s1 : FrontierState}
    (h : Frontier.get_next none s = (none, s1)) :
    s1 = s ∧ Frontier.pending_count s = 0 := by
  obtain ⟨hs, hfil⟩ := get_next_none_elim h
  refine ⟨hs, ?_⟩
  unfold Frontier.pending_count
  have hco : s.queue.filter (fun x => x.status == EntryStatus.pending)
      = s.queue.filter (fun x => x.status == EntryStatus.pending && matchesDomain none x) := by
    apply List.filter_congr
    intro x _
    simp [matchesDomain]
  rw [hco, hfil]
  rfl

theorem pending_count_mark_done {s1 : FrontierState} {u : String}
    (hnd1 : (s1.queue.map (·.url)).Nodup)
    (hproc : Frontier.statusOf u s1 = some .processing) :
    Frontier.pending_count (Frontier.mark_done u s1) = Frontier.pending_count s1 := by
  have hnp : ∀ x ∈ s1.queue, x.url = u → (x.status == EntryStatus.pending) = false := by
    intro x hx hxu
    rw [statusOf_unique hnd1 hproc x hx hxu]
    rfl
  unfold Frontier.mark_done Frontier.pending_count
  exact countP_status_no_pending s1.queue u .done rfl hnp

theorem mark_done_urls (u : String) (s1 : FrontierState) :
    (Frontier.mark_done u s1).queue.map (·.url) = s1.queue.map (·.url) := by
  unfold Frontier.mark_done
  exact urls_map_status _ _ (fun x => by by_cases hx : x.url = u <;> simp [hx])

/-! ## Claims -/

/-! ## Claims -/

/-- C3 (counterexample): a frontier entry whose status is `done` does not
stay `done` under a subsequent `mark_failed` of the same URL — the UPDATE
has no status guard, so the claimed invariant fails for the operation
sequence consisting of that single call. -/
theorem done_not_preserved_counterexample :
    Frontier.statusOf "http://a/x" frDone = some .done
    ∧ Frontier.statusOf "http://a/x" (Frontier.mark_failed "http://a/x" frDone)
        = some .failed := by
  constructor <;> decide

/-- C3 (amended): an entry whose status is `done` keeps that status under
`mark_done`, `requeue_failed`, `add` and `get_next`, and under
`mark_failed` of any other URL; only `mark_failed` of the entry's own URL
(which the engine never issues for a done URL) moves it to `failed`. -/
theorem done_entry_stays_done (s : FrontierState) (u : String)
    (hnd : (s.queue.map (·.url)).Nodup)
    (h : Frontier.statusOf u s = some .done) :
    (∀ v, Frontier.statusOf u (Frontier.mark_done v s) = some .done)
    ∧ (∀ v, v ≠ u → Frontier.statusOf u (Frontier.mark_failed v s) = some .done)
    ∧ Frontier.statusOf u (Frontier.requeue_failed s).2 = some .done
    ∧ (∀ t, Frontier.statusOf u (Frontier.add t s).2 = some .done)
    ∧ (∀ d, Frontier.statusOf u (Frontier.get_next d s).2 = some .done) := by
  have hs : (Frontier.statusOf u s).isSome = true := by rw [h]; rfl
  obtain ⟨e, he, hf, hu⟩ := statusOf_isSome_elim u s hs
  have hst : e.status = .done := by
    unfold Frontier.statusOf at h
    rw [hf] at h
    simpa using h
  refine ⟨?_, ?_, ?_, ?_, ?_⟩
  · intro v
    unfold Frontier.mark_done
    rw [statusOf_map u s.seen s.queue _ (by intro x; by_cases hx : x.url = v <;> simp [hx])]
    rw [hf]
    by_cases hv : e.url = v <;> simp [hv, hst]
  · intro v hv
    unfold Frontier.mark_failed
    rw [statusOf_map u s.seen s.queue _ (by intro x; by_cases hx : x.url = v <;> simp [hx])]
    rw [hf]
    have : ¬ e.url = v := by rw [hu]; exact fun hc => hv hc.symm
    simp [this, hst]
  · unfold Frontier.requeue_failed
    rw [statusOf_map u s.seen s.queue _ (by intro x; by_cases hx : x.status = .failed <;> simp [hx])]
    rw [hf]
    have : ¬ e.status = .failed := by rw [hst]; simp
    simp [this, hst]
  · intro t
    unfold Frontier.add
    split
    · simpa using h
    · split
      · unfold Frontier.statusOf at h ⊢
        simpa using h
      · unfold Frontier.statusOf
        simp only
        rw [find?_append_of_some _ _ _ _ hf]
        simp [hst]
  · intro d
    unfold Frontier.get_next
    cases hp : pickBest (s.queue.filter (fun e => e.status == EntryStatus.pending && matchesDomain d e)) with
    | none => simpa using h
    | some b =>
      have hbmem : b ∈ s.queue := (List.mem_filter.mp (pickBest_mem hp)).1
      have hbpend : b.status = .pending := by
        have := (List.mem_filter.mp (pickBest_mem hp)).2
        simp at this
        exact this.1
      have hne : ¬ e.url = b.url := by
        intro hc
        have : e = b := nodup_url_inj hnd he hbmem hc
        rw [this, hbpend] at hst
        simp at hst
      simp only
      rw [statusOf_map u s.seen s.queue
        (fun x => if x.url = b.url then { x with status := EntryStatus.processing } else x)
        (by intro x; by_cases hx : x.url = b.url <;> simp [hx])]
      rw [hf]
      simp [hne, hst]

/-- C3 (amended) witness: instantiated on the concrete one-entry done
frontier. -/
theorem done_entry_stays_done_witness :
    ((frDone.queue.map (·.url)).Nodup
      ∧ Frontier.statusOf "http://a/x" frDone = some .done)
    ∧ Frontier.statusOf "http://a/x" (Frontier.mark_done "http://b/y" frDone) = some .done := by
  refine ⟨⟨by decide, by decide⟩, ?_⟩
  exact (done_entry_stays_done frDone "http://a/x" (by decide) (by decide)).1 "http://b/y"

/-- C6: `Frontier.add` deduplicates on the raw `task.url`, not on
`normalize(task.url)`.  Two URLs with equal normal forms (the inputs of
the repository's own test `test_add_normalizes_url`, which asserts the
second add returns false) are both accepted. -/
theorem add_ignores_normalization :
    normalize_url "http://example.com/page#section" = normalize_url "http://example.com/page"
    ∧ (Frontier.add ⟨"http://example.com/page#section", 0, 1, none, 0⟩ FrontierState.empty).1
        = true
    ∧ (Frontier.add ⟨"http://example.com/page", 0, 1, none, 0⟩
        (Frontier.add ⟨"http://example.com/page#section", 0, 1, none, 0⟩
          FrontierState.empty).2).1 = true := by
  refine ⟨by decide, by decide, by decide⟩

/-- C10: `record_error` on an origin that has no `DomainState` leaves the
manager unchanged (no state is created, nothing is counted) and
`should_retry` still answers true for that origin afterwards. -/
theorem record_error_unknown_origin (u : String) (dm : DMState)
    (h : DM.lookup dm (netlocOf u) = none) :
    DM.record_error u dm = dm ∧ DM.should_retry u (DM.record_error u dm) = true := by
  have hf : dm.domains.find? (fun p => p.1 == netlocOf u) = none := by
    unfold DM.lookup at h
    exact Option.map_eq_none'.mp h
  have hany : dm.domains.any (fun p => p.1 == netlocOf u) = false := by
    rw [List.any_eq_false]
    intro x hx
    have := List.find?_eq_none.mp hf x hx
    simpa using this
  have h1 : DM.record_error u dm = dm := by
    unfold DM.record_error
    simp [hany]
  refine ⟨h1, ?_⟩
  rw [h1]
  unfold DM.should_retry DM.lookup
  rw [hf]
  rfl

/-- C10 witness: a fresh manager with no per-domain state. -/
theorem record_error_unknown_origin_witness :
    DM.lookup dmDefault (netlocOf "http://unknown.com/page") = none
    ∧ DM.record_error "http://unknown.com/page" dmDefault = dmDefault
    ∧ DM.should_retry "http://unknown.com/page"
        (DM.record_error "http://unknown.com/page" dmDefault) = true :=
  ⟨rfl, (record_error_unknown_origin "http://unknown.com/page" dmDefault rfl).1,
    (record_error_unknown_origin "http://unknown.com/page" dmDefault rfl).2⟩

/-- C7: robots checking fails open — with politeness disabled
`is_allowed` is constantly true, and for a fresh origin whose robots.txt
fetch errors out or returns a non-200 status, `is_allowed` is true. -/
theorem is_allowed_fail_open (u : String) (res : RobotsFetchResult) (now : Rat)
    (dm : DMState) :
    (dm.respect_robots = false → (DM.is_allowed u res now dm).1 = true)
    ∧ (DM.lookup dm (netlocOf u) = none →
        (res = .fetchError ∨ ∀ c r, res = .response c r → c ≠ 200) →
        (DM.is_allowed u res now dm).1 = true) := by
  constructor
  · intro hrr
    unfold DM.is_allowed
    simp [hrr]
  · intro hfresh hres
    have hf : dm.domains.find? (fun p => p.1 == netlocOf u) = none := by
      unfold DM.lookup at hfresh
      exact Option.map_eq_none'.mp hfresh
    have hany : dm.domains.any (fun p => p.1 == netlocOf u) = false := by
      rw [List.any_eq_false]
      intro x hx
      have := List.find?_eq_none.mp hf x hx
      simpa using this
    have hrules : (DM.get_state u res now dm).1.robots_rules = none := by
      unfold DM.get_state
      simp only [hany, Bool.false_eq_true, if_false]
      have hlk : DM.lookup
          { dm with domains := dm.domains ++ [(netlocOf u, DM.freshState dm (netlocOf u))] }
          (netlocOf u) = some (DM.freshState dm (netlocOf u)) := by
        unfold DM.lookup
        have : ({ dm with
            domains := dm.domains ++ [(netlocOf u, DM.freshState dm (netlocOf u))] } :
            DMState).domains = dm.domains ++ [(netlocOf u, DM.freshState dm (netlocOf u))] := rfl
        rw [this, find?_append_of_none _ _ _ hf]
        simp
      rw [hlk]
      simp only [Option.getD_some]
      have hcv : DM.cacheValid
          { dm with domains := dm.domains ++ [(netlocOf u, DM.freshState dm (netlocOf u))] }
          (DM.freshState dm (netlocOf u)) now = false := by
        unfold DM.cacheValid DM.freshState
        simp
      rw [hcv]
      cases hdm : ({ dm with
          domains := dm.domains ++ [(netlocOf u, DM.freshState dm (netlocOf u))] } :
          DMState).respect_robots with
      | false => simp [DM.freshState]
      | true =>
        simp only [Bool.not_false, Bool.and_true, if_true]
        cases res with
        | fetchError =>
          unfold DM.fetchRobotsUpdate DM.freshState
          simp
        | response c r =>
          have hc : c ≠ 200 := by
            rcases hres with h1 | h2
            · simp at h1
            · exact h2 c r rfl
          unfold DM.fetchRobotsUpdate DM.freshState
          simp [hc]
    unfold DM.is_allowed
    by_cases hrr : dm.respect_robots
    · simp only [hrr, Bool.not_true, Bool.false_eq_true, if_false]
      rw [hrules]
    · simp [hrr]

/-- C7 witness: a fresh default manager, robots fetch failing, and a 404
response; plus the disabled-robots manager. -/
theorem is_allowed_fail_open_witness :
    (dmNoRobots.respect_robots = false
      ∧ (DM.is_allowed "http://a/x" .fetchError 0 dmNoRobots).1 = true)
    ∧ (DM.lookup dmDefault (netlocOf "http://a/x") = none
      ∧ (DM.is_allowed "http://a/x" .fetchError 0 dmDefault).1 = true) := by
  constructor
  · exact ⟨rfl, (is_allowed_fail_open "http://a/x" .fetchError 0 dmNoRobots).1 rfl⟩
  · exact ⟨rfl, (is_allowed_fail_open "http://a/x" .fetchError 0 dmDefault).2 rfl
      (Or.inl rfl)⟩

/-- C2: classification of fetch failures in `_process_url`.  Under the
same robots verdict and rate-limit bookkeeping (`dmAfter`), a timeout or
connection error records a domain error, marks the URL failed and tags
the record retryable; a 4xx marks it done with `retryable = false`; a
5xx records a domain error, marks it failed and tags it retryable. -/
theorem process_url_error_classification (cfg : EngineConfig)
    (extractFn : String → String → List String) (robotsRes : RobotsFetchResult)
    (now now2 lt : Rat) (t : CrawlTask) (fr : FrontierState) (dm : DMState)
    (hA : (DM.is_allowed t.url robotsRes now dm).1 = true)
    (hE : (Frontier.statusOf t.url fr).isSome = true) :
    (process_url cfg extractFn robotsRes now now2 lt .timeout t fr dm =
      (some (.fail t.url "timeout" true t.depth), Frontier.mark_failed t.url fr,
       DM.record_error t.url (DM.rateLimitUpdate t.url robotsRes now now2
         (DM.is_allowed t.url robotsRes now dm).2)))
    ∧ (process_url cfg extractFn robotsRes now now2 lt .connectError t fr dm =
      (some (.fail t.url "connection_error" true t.depth), Frontier.mark_failed t.url fr,
       DM.record_error t.url (DM.rateLimitUpdate t.url robotsRes now now2
         (DM.is_allowed t.url robotsRes now dm).2)))
    ∧ (∀ code : Int, 400 ≤ code → code < 500 →
        process_url cfg extractFn robotsRes now now2 lt (.httpStatusError code) t fr dm =
          (some (.fail t.url ("http_" ++ toString code) false t.depth),
           Frontier.mark_done t.url fr,
           DM.rateLimitUpdate t.url robotsRes now now2
             (DM.is_allowed t.url robotsRes now dm).2))
    ∧ (∀ code : Int, 500 ≤ code →
        process_url cfg extractFn robotsRes now now2 lt (.httpStatusError code) t fr dm =
          (some (.fail t.url ("http_" ++ toString code) true t.depth),
           Frontier.mark_failed t.url fr,
           DM.record_error t.url (DM.rateLimitUpdate t.url robotsRes now now2
             (DM.is_allowed t.url robotsRes now dm).2)))
    ∧ Frontier.statusOf t.url (Frontier.mark_failed t.url fr) = some .failed
    ∧ Frontier.statusOf t.url (Frontier.mark_done t.url fr) = some .done := by
  refine ⟨?_, ?_, ?_, ?_, statusOf_mark_failed_self _ _ hE, statusOf_mark_done_self _ _ hE⟩
  · unfold process_url
    simp [hA]
  · unfold process_url
    simp [hA]
  · intro code h1 h2
    unfold process_url
    simp only [hA, Bool.not_true, Bool.false_eq_true, if_false]
    rw [if_pos ⟨h1, h2⟩]
    have : decide (500 ≤ code) = false := by simp; omega
    rw [this]
  · intro code h1
    unfold process_url
    simp only [hA, Bool.not_true, Bool.false_eq_true, if_false]
    rw [if_neg (by omega : ¬ (400 ≤ code ∧ code < 500))]
    have : decide (500 ≤ code) = true := by simp; omega
    rw [this]

/-- C2 witness: a concrete one-entry frontier and a manager with robots
disabled; evaluating the 404 case. -/
theorem process_url_error_classification_witness :
    ((DM.is_allowed taskA.url .fetchError 0 dmNoRobots).1 = true
      ∧ (Frontier.statusOf taskA.url frOne).isSome = true)
    ∧ process_url cfgSmall noLinks .fetchError 0 0 0 (.httpStatusError 404) taskA frOne
        dmNoRobots =
      (some (.fail taskA.url ("http_" ++ toString (404 : Int)) false taskA.depth),
       Frontier.mark_done taskA.url frOne,
       DM.rateLimitUpdate taskA.url .fetchError 0 0
         (DM.is_allowed taskA.url .fetchError 0 dmNoRobots).2) := by
  refine ⟨⟨by decide, by decide⟩, ?_⟩
  exact (process_url_error_classification cfgSmall noLinks .fetchError 0 0 0 taskA frOne
    dmNoRobots (by decide) (by decide)).2.2.1 404 (by omega) (by omega)

/-- C9 (counterexample): for an unclassified failure the emitted record
does not reflect retryability — on a fresh origin (where `should_retry`
holds and the URL is marked failed, i.e. the retryable-transient case)
the record still carries `retryable = false`. -/
theorem unclassified_record_not_retryable_counterexample :
    (process_url cfgSmall noLinks .fetchError 0 0 0 (.otherError "boom") taskA frOne
        dmNoRobots).1 = some (.fail "http://a/x" "boom" false 0)
    ∧ Frontier.statusOf "http://a/x"
        (process_url cfgSmall noLinks .fetchError 0 0 0 (.otherError "boom") taskA frOne
          dmNoRobots).2.1 = some .failed := by
  constructor <;> decide

/-- C9 (amended): an unclassified failure records a domain error; if
`should_retry` still holds the URL is marked failed (eligible for a later
`requeue_failed` pass), otherwise it is marked done — but the emitted
record carries `retryable = false` in both cases. -/
theorem process_url_unclassified (cfg : EngineConfig)
    (extractFn : String → String → List String) (robotsRes : RobotsFetchResult)
    (now now2 lt : Rat) (msg : String) (t : CrawlTask) (fr : FrontierState) (dm : DMState)
    (hA : (DM.is_allowed t.url robotsRes now dm).1 = true)
    (hE : (Frontier.statusOf t.url fr).isSome = true) :
    (DM.should_retry t.url (DM.record_error t.url (DM.rateLimitUpdate t.url robotsRes now
        now2 (DM.is_allowed t.url robotsRes now dm).2)) = true →
      process_url cfg extractFn robotsRes now now2 lt (.otherError msg) t fr dm =
        (some (.fail t.url msg false t.depth), Frontier.mark_failed t.url fr,
         DM.record_error t.url (DM.rateLimitUpdate t.url robotsRes now now2
           (DM.is_allowed t.url robotsRes now dm).2))
      ∧ Frontier.statusOf t.url
          (process_url cfg extractFn robotsRes now now2 lt (.otherError msg) t fr dm).2.1
          = some .failed)
    ∧ (DM.should_retry t.url (DM.record_error t.url (DM.rateLimitUpdate t.url robotsRes now
        now2 (DM.is_allowed t.url robotsRes now dm).2)) = false →
      process_url cfg extractFn robotsRes now now2 lt (.otherError msg) t fr dm =
        (some (.fail t.url msg false t.depth), Frontier.mark_done t.url fr,
         DM.record_error t.url (DM.rateLimitUpdate t.url robotsRes now now2
           (DM.is_allowed t.url robotsRes now dm).2))
      ∧ Frontier.statusOf t.url
          (process_url cfg extractFn robotsRes now now2 lt (.otherError msg) t fr dm).2.1
          = some .done) := by
  constructor
  · intro hr
    have heq : process_url cfg extractFn robotsRes now now2 lt (.otherError msg) t fr dm =
        (some (.fail t.url msg false t.depth), Frontier.mark_failed t.url fr,
         DM.record_error t.url (DM.rateLimitUpdate t.url robotsRes now now2
           (DM.is_allowed t.url robotsRes now dm).2)) := by
      unfold process_url
      simp only [hA, Bool.not_true, Bool.false_eq_true, if_false]
      rw [hr]
      rfl
    exact ⟨heq, by rw [heq]; exact statusOf_mark_failed_self _ _ hE⟩
  · intro hr
    have heq : process_url cfg extractFn robotsRes now now2 lt (.otherError msg) t fr dm =
        (some (.fail t.url msg false t.depth), Frontier.mark_done t.url fr,
         DM.record_error t.url (DM.rateLimitUpdate t.url robotsRes now now2
           (DM.is_allowed t.url robotsRes now dm).2)) := by
      unfold process_url
      simp only [hA, Bool.not_true, Bool.false_eq_true, if_false]
      rw [hr]
      rfl
    exact ⟨heq, by rw [heq]; exact statusOf_mark_done_self _ _ hE⟩

/-- C9 (amended) witness: fresh origin, so the retry budget holds and
the failed branch is taken. -/
theorem process_url_unclassified_witness :
    ((DM.is_allowed taskA.url .fetchError 0 dmNoRobots).1 = true
      ∧ (Frontier.statusOf taskA.url frOne).isSome = true
      ∧ DM.should_retry taskA.url (DM.record_error taskA.url (DM.rateLimitUpdate taskA.url
          .fetchError 0 0 (DM.is_allowed taskA.url .fetchError 0 dmNoRobots).2)) = true)
    ∧ Frontier.statusOf taskA.url
        (process_url cfgSmall noLinks .fetchError 0 0 0 (.otherError "boom") taskA frOne
          dmNoRobots).2.1 = some .failed := by
  refine ⟨⟨by decide, by decide, by decide⟩, ?_⟩
  exact ((process_url_unclassified cfgSmall noLinks .fetchError 0 0 0 "boom" taskA frOne
    dmNoRobots (by decide) (by decide)).1 (by decide)).2

/-- C4 (counterexample): an intermediate retryable attempt does emit a
record — a timeout on a fresh frontier yields a record tagged
`retryable = true` while the entry goes to `failed`, from where
`requeue_failed` would recover it (so the attempt was not terminal). -/
theorem retryable_attempt_emits_record_counterexample :
    (process_url cfgSmall noLinks .fetchError 0 0 0 .timeout taskA frOne dmNoRobots).1
      = some (.fail "http://a/x" "timeout" true 0)
    ∧ Frontier.statusOf "http://a/x"
        (process_url cfgSmall noLinks .fetchError 0 0 0 .timeout taskA frOne
          dmNoRobots).2.1 = some .failed
    ∧ (Frontier.requeue_failed
        (process_url cfgSmall noLinks .fetchError 0 0 0 .timeout taskA frOne
          dmNoRobots).2.1).1 = 1 := by
  refine ⟨by decide, by decide, by decide⟩

/-- C4 (amended): `_process_url` returns exactly one record per processed
attempt — for every outcome, including retryable failures — and returns
none exactly when robots.txt disallows the URL (in which case the worker
appends nothing). -/
theorem one_record_per_attempt (cfg : EngineConfig)
    (extractFn : String → String → List String) (robotsRes : RobotsFetchResult)
    (now now2 lt : Rat) (outcome : FetchOutcome) (t : CrawlTask) (fr : FrontierState)
    (dm : DMState) :
    ((process_url cfg extractFn robotsRes now now2 lt outcome t fr dm).1).isSome
      = (DM.is_allowed t.url robotsRes now dm).1 := by
  by_cases hA : (DM.is_allowed t.url robotsRes now dm).1 = true
  · cases outcome with
    | success finalUrl status text => simp [process_url, hA]
    | timeout => simp [process_url, hA]
    | connectError => simp [process_url, hA]
    | httpStatusError code =>
      by_cases hc : 400 ≤ code ∧ code < 500 <;> simp [process_url, hA, hc]
    | otherError msg =>
      by_cases hr : DM.should_retry t.url (DM.record_error t.url (DM.rateLimitUpdate t.url
          robotsRes now now2 (DM.is_allowed t.url robotsRes now dm).2)) = true <;>
        simp [process_url, hA, hr]
  · have hA' : (DM.is_allowed t.url robotsRes now dm).1 = false := by
      cases h2 : (DM.is_allowed t.url robotsRes now dm).1
      · rfl
      · exact absurd h2 hA
    unfold process_url
    simp [hA']

/-- C1: on a queue with unique URLs (the table's UNIQUE constraint),
`get_next` returns a pending entry matching the optional domain filter
that is maximal for priority-descending then enqueue-time-ascending
order, transitions exactly that entry to `processing` (all other rows are
kept), returns none exactly when no pending matching entry exists, never
returns a URL whose status is `processing`, and two successive calls
never return the same URL. -/
theorem get_next_spec (s : FrontierState) (d : Option String)
    (hnd : (s.queue.map (·.url)).Nodup) :
    (∀ t s1, Frontier.get_next d s = (some t, s1) →
      (∃ e ∈ s.queue, e.status = .pending ∧ matchesDomain d e = true
        ∧ t = ⟨e.url, e.depth, e.priority, e.source_url, e.added_at⟩
        ∧ (∀ e2 ∈ s.queue, e2.status = .pending → matchesDomain d e2 = true →
            e2.priority < e.priority
              ∨ (e2.priority = e.priority ∧ e.added_at ≤ e2.added_at))
        ∧ s1.seen = s.seen
        ∧ s1.queue = s.queue.map
            (fun x => if x.url = e.url then { x with status := EntryStatus.processing } else x))
      ∧ Frontier.statusOf t.url s1 = some .processing
      ∧ (∀ x ∈ s.queue, x.url ≠ t.url → x ∈ s1.queue))
    ∧ ((Frontier.get_next d s).1 = none ↔
        ∀ e ∈ s.queue, e.status = .pending → matchesDomain d e = false)
    ∧ (∀ u, Frontier.statusOf u s = some .processing →
        ∀ t s1, Frontier.get_next d s = (some t, s1) → t.url ≠ u)
    ∧ (∀ t s1, Frontier.get_next d s = (some t, s1) →
        ∀ d2 t2 s2, Frontier.get_next d2 s1 = (some t2, s2) → t2.url ≠ t.url) := by
  have hmain : ∀ t s1, Frontier.get_next d s = (some t, s1) →
      (∃ e ∈ s.queue, e.status = .pending ∧ matchesDomain d e = true
        ∧ t = ⟨e.url, e.depth, e.priority, e.source_url, e.added_at⟩
        ∧ (∀ e2 ∈ s.queue, e2.status = .pending → matchesDomain d e2 = true →
            e2.priority < e.priority
              ∨ (e2.priority = e.priority ∧ e.added_at ≤ e2.added_at))
        ∧ s1.seen = s.seen
        ∧ s1.queue = s.queue.map
            (fun x => if x.url = e.url then { x with status := EntryStatus.processing } else x))
      ∧ Frontier.statusOf t.url s1 = some .processing
      ∧ (∀ x ∈ s.queue, x.url ≠ t.url → x ∈ s1.queue) := by
    intro t s1 h
    obtain ⟨e, hp, ht, hs1⟩ := get_next_some_elim h
    have hmem := pickBest_mem hp
    have he : e ∈ s.queue := (List.mem_filter.mp hmem).1
    have hfp := (List.mem_filter.mp hmem).2
    simp only [Bool.and_eq_true, beq_iff_eq] at hfp
    have hmax : ∀ e2 ∈ s.queue, e2.status = .pending → matchesDomain d e2 = true →
        e2.priority < e.priority ∨ (e2.priority = e.priority ∧ e.added_at ≤ e2.added_at) := by
      intro e2 he2 hp2 hm2
      have he2f : e2 ∈ s.queue.filter
          (fun x => x.status == EntryStatus.pending && matchesDomain d x) := by
        rw [List.mem_filter]
        exact ⟨he2, by simp [hp2, hm2]⟩
      have hnb := pickBest_max hp e2 he2f
      unfold betterEntry at hnb
      push_neg at hnb
      rcases lt_or_eq_of_le hnb.1 with hlt | heq
      · exact Or.inl hlt
      · exact Or.inr ⟨heq, hnb.2 heq⟩
    have hurl : t.url = e.url := by rw [ht]
    have hstat : Frontier.statusOf t.url s1 = some .processing := by
      rw [hs1, hurl]
      rw [statusOf_map e.url s.seen s.queue
        (fun x => if x.url = e.url then { x with status := EntryStatus.processing } else x)
        (by intro x; by_cases hx : x.url = e.url <;> simp [hx])]
      rw [find?_url_of_mem hnd he]
      simp
    refine ⟨⟨e, he, hfp.1, hfp.2, ht, hmax, by rw [hs1], by rw [hs1]⟩, hstat, ?_⟩
    intro x hx hxu
    rw [hs1]
    have hxe : ¬ x.url = e.url := by rw [hurl] at hxu; exact hxu
    refine List.mem_map.mpr ⟨x, hx, ?_⟩
    simp [hxe]
  refine ⟨hmain, ?_, ?_, ?_⟩
  · constructor
    · intro hnone e he hp2
      cases hgn : Frontier.get_next d s with
      | mk t? s1 =>
        cases t? with
        | some t => rw [hgn] at hnone; simp at hnone
        | none =>
          have hfil := (get_next_none_elim hgn).2
          have : e ∈ s.queue.filter
              (fun x => x.status == EntryStatus.pending && matchesDomain d x) → False := by
            rw [hfil]; simp
          by_contra hm
          apply this
          rw [List.mem_filter]
          refine ⟨he, ?_⟩
          simp only [Bool.and_eq_true, beq_iff_eq]
          refine ⟨hp2, ?_⟩
          cases hmm : matchesDomain d e
          · exact absurd hmm hm
          · rfl
    · intro hall
      cases hgn : Frontier.get_next d s with
      | mk t? s1 =>
        cases t? with
        | none => rfl
        | some t =>
          obtain ⟨⟨e, he, hp2, hm2, _⟩, _, _⟩ := hmain t s1 hgn
          rw [hall e he hp2] at hm2
          simp at hm2
  · intro u hproc t s1 h
    exact get_next_not_processing d u hnd hproc t s1 h
  · intro t s1 h d2 t2 s2 h2
    obtain ⟨⟨e, he, _, _, ht, _, _, hq1⟩, hstat, _⟩ := hmain t s1 h
    have hnd1 : (s1.queue.map (·.url)).Nodup := by
      rw [hq1, urls_map_status s.queue _
        (by intro x; by_cases hx : x.url = e.url <;> simp [hx])]
      exact hnd
    exact get_next_not_processing d2 t.url hnd1 hstat t2 s2 h2

/-- C1 witness: the ten-entry frontier; the none-case iff is evaluated
for a domain filter matching nothing. -/
theorem get_next_spec_witness :
    (frTen.queue.map (·.url)).Nodup
    ∧ ((Frontier.get_next (some "nosuch") frTen).1 = none ↔
        ∀ e ∈ frTen.queue, e.status = .pending →
          matchesDomain (some "nosuch") e = false) :=
  ⟨by decide, (get_next_spec frTen (some "nosuch") (by decide)).2.1⟩

/-- C5: when every fetch succeeds (and yields no links), a worker
processes exactly enough tasks to reach the page budget and then stops
pulling: the final `pages_crawled` is the old count capped to
`max_pages`, raised by at most the number of pending tasks — so with a
budget of `max_pages` and at least that many pending tasks, exactly
`max_pages` tasks complete before the worker stops pulling new work. -/
theorem worker_budget (cfg : EngineConfig) (extractFn : String → String → List String)
    (robotsResF : String → RobotsFetchResult) (outcomeF : String → FetchOutcome)
    (hext : ∀ a b, extractFn a b = [])
    (hout : ∀ u, outcomeF u = FetchOutcome.success u 200 "") :
    ∀ (fuel : Nat) (st : EngineState),
      st.dm.respect_robots = false →
      (st.frontier.queue.map (·.url)).Nodup →
      Frontier.pending_count st.frontier + 1 ≤ fuel →
      (worker cfg extractFn robotsResF outcomeF fuel st).pages_crawled
        = max st.pages_crawled
            (min cfg.max_pages (st.pages_crawled + Frontier.pending_count st.frontier)) := by
  intro fuel
  induction fuel with
  | zero => intro st _ _ hf; omega
  | succ n ih =>
    intro st hrr hnd hf
    by_cases hpg : st.pages_crawled ≥ cfg.max_pages
    · have : worker cfg extractFn robotsResF outcomeF (n + 1) st = st := by
        simp only [worker]
        rw [if_pos hpg]
      rw [this]
      omega
    · cases hgn : Frontier.get_next none st.frontier with
      | mk t? fr1 =>
        cases t? with
        | none =>
          obtain ⟨hs, hpc⟩ := get_next_none_pending_zero hgn
          have hw : worker cfg extractFn robotsResF outcomeF (n + 1) st
              = { st with frontier := fr1 } := by
            simp only [worker]
            rw [if_neg hpg, hgn]
            have : Frontier.pending_count fr1 = 0 := by rw [hs]; exact hpc
            simp [this]
          rw [hw]
          simp only
          omega
        | some t =>
          obtain ⟨hpc, hurls, hstat, _⟩ := get_next_some_pending hnd hgn
          have hnd1 : (fr1.queue.map (·.url)).Nodup := by rw [hurls]; exact hnd
          have hproc : process_url cfg extractFn (robotsResF t.url) 0 0 0
              (outcomeF t.url) t fr1 st.dm
              = (some (.page t.url 200 ("" : String).length t.depth t.source_url),
                 Frontier.mark_done t.url fr1,
                 DM.rateLimitUpdate t.url (robotsResF t.url) 0 0 st.dm) := by
            rw [hout t.url]
            exact process_url_success_simple cfg extractFn (robotsResF t.url) 0 0 0
              t.url 200 "" t fr1 st.dm hrr hext
          have hw : worker cfg extractFn robotsResF outcomeF (n + 1) st
              = worker cfg extractFn robotsResF outcomeF n
                  ⟨Frontier.mark_done t.url fr1,
                   DM.rateLimitUpdate t.url (robotsResF t.url) 0 0 st.dm,
                   st.results ++ [.page t.url 200 ("" : String).length t.depth t.source_url],
                   st.pages_crawled + 1⟩ := by
            simp only [worker]
            rw [if_neg hpg, hgn]
            simp only [hproc]
          rw [hw]
          have hrec := ih ⟨Frontier.mark_done t.url fr1,
              DM.rateLimitUpdate t.url (robotsResF t.url) 0 0 st.dm,
              st.results ++ [.page t.url 200 ("" : String).length t.depth t.source_url],
              st.pages_crawled + 1⟩
            (by simpa using rateLimitUpdate_respect t.url (robotsResF t.url) 0 0 st.dm ▸ hrr)
            (by simpa using (mark_done_urls t.url fr1).symm ▸ hnd1)
            (by
              have hmd := pending_count_mark_done hnd1 hstat
              simp only
              omega)
          rw [hrec]
          have hmd := pending_count_mark_done hnd1 hstat
          simp only at *
          omega

/-- C5 witness: with `maxPages = 2` and ten pending tasks, exactly two
tasks complete before the worker stops pulling. -/
theorem worker_budget_witness :
    ((∀ a b, noLinks a b = ([] : List String))
      ∧ (∀ u, (fun v => FetchOutcome.success v 200 "") u = FetchOutcome.success u 200 "")
      ∧ dmNoRobots.respect_robots = false
      ∧ (frTen.queue.map (·.url)).Nodup
      ∧ Frontier.pending_count frTen + 1 ≤ 11)
    ∧ (worker cfgSmall noLinks robotsErrOracle (fun v => FetchOutcome.success v 200 "") 11
        ⟨frTen, dmNoRobots, [], 0⟩).pages_crawled
      = max 0 (min cfgSmall.max_pages (0 + Frontier.pending_count frTen)) := by
  refine ⟨⟨fun a b => rfl, fun u => rfl, rfl, by decide, by decide⟩, ?_⟩
  exact worker_budget cfgSmall noLinks robotsErrOracle (fun v => FetchOutcome.success v 200 "")
    (fun a b => rfl) (fun u => rfl) 11 ⟨frTen, dmNoRobots, [], 0⟩ rfl (by decide) (by decide)

/-! ## Character arithmetic lemmas (for the normalization claims) -/

theorem charOfNat_toNat {n : Nat} (hv : n.isValidChar) : (Char.ofNat n).toNat = n := by
  simp [Char.ofNat, hv, Char.ofNatAux, Char.toNat, UInt32.toNat, BitVec.toNat_ofNatLt]

theorem charToNat_inj {a b : Char} (h : a.toNat = b.toNat) : a = b := by
  apply Char.ext
  apply UInt32.ext
  exact h

theorem char_eq_iff (a b : Char) : a = b ↔ a.toNat = b.toNat :=
  ⟨fun h => h ▸ rfl, charToNat_inj⟩

theorem charOfNat_small {n : Nat} (h : n < 55296) : (Char.ofNat n).toNat = n :=
  charOfNat_toNat (Or.inl h)

theorem charOfNat_toNat_self (c : Char) : Char.ofNat c.toNat = c := by
  apply charToNat_inj
  exact charOfNat_toNat c.valid

theorem char_le_iff (a b : Char) : (a ≤ b) ↔ a.toNat ≤ b.toNat := Iff.rfl

theorem char_toNat_bound (c : Char) : c.toNat < 1114112 := by
  have h := c.valid
  show c.val.toNat < 1114112
  rcases h with h | h <;> omega

theorem isAsciiAlpha_iff (c : Char) : isAsciiAlpha c = true ↔
    (97 ≤ c.toNat ∧ c.toNat ≤ 122) ∨ (65 ≤ c.toNat ∧ c.toNat ≤ 90) := by
  unfold isAsciiAlpha
  simp only [Bool.or_eq_true, Bool.and_eq_true, decide_eq_true_eq, char_le_iff]
  rw [show ('a' : Char).toNat = 97 from rfl, show ('z' : Char).toNat = 122 from rfl,
    show ('A' : Char).toNat = 65 from rfl, show ('Z' : Char).toNat = 90 from rfl]

theorem isAsciiDigit_iff (c : Char) : isAsciiDigit c = true ↔
    48 ≤ c.toNat ∧ c.toNat ≤ 57 := by
  unfold isAsciiDigit
  simp only [Bool.and_eq_true, decide_eq_true_eq, char_le_iff]
  rw [show ('0' : Char).toNat = 48 from rfl, show ('9' : Char).toNat = 57 from rfl]

theorem isSchemeChar_iff (c : Char) : isSchemeChar c = true ↔
    (97 ≤ c.toNat ∧ c.toNat ≤ 122) ∨ (65 ≤ c.toNat ∧ c.toNat ≤ 90)
    ∨ (48 ≤ c.toNat ∧ c.toNat ≤ 57) ∨ c.toNat = 43 ∨ c.toNat = 45 ∨ c.toNat = 46 := by
  unfold isSchemeChar
  simp only [Bool.or_eq_true, decide_eq_true_eq, isAsciiAlpha_iff, isAsciiDigit_iff,
    char_eq_iff]
  rw [show ('+' : Char).toNat = 43 from rfl, show ('-' : Char).toNat = 45 from rfl,
    show ('.' : Char).toNat = 46 from rfl]
  tauto

theorem isUrlSafe_iff (c : Char) : isUrlSafe c = true ↔
    (97 ≤ c.toNat ∧ c.toNat ≤ 122) ∨ (65 ≤ c.toNat ∧ c.toNat ≤ 90)
    ∨ (48 ≤ c.toNat ∧ c.toNat ≤ 57) ∨ c.toNat = 95 ∨ c.toNat = 46 ∨ c.toNat = 45
    ∨ c.toNat = 126 := by
  unfold isUrlSafe
  simp only [Bool.or_eq_true, decide_eq_true_eq, isAsciiAlpha_iff, isAsciiDigit_iff,
    char_eq_iff]
  rw [show ('_' : Char).toNat = 95 from rfl, show ('.' : Char).toNat = 46 from rfl,
    show ('-' : Char).toNat = 45 from rfl, show ('~' : Char).toNat = 126 from rfl]
  tauto

theorem lowerChar_toNat (c : Char) : (lowerChar c).toNat =
    if 65 ≤ c.toNat ∧ c.toNat ≤ 90 then c.toNat + 32 else c.toNat := by
  unfold lowerChar
  by_cases h : 65 ≤ c.toNat ∧ c.toNat ≤ 90
  · have hb : (decide ('A' ≤ c) && decide (c ≤ 'Z')) = true := by
      simp only [Bool.and_eq_true, decide_eq_true_eq, char_le_iff]
      rw [show ('A' : Char).toNat = 65 from rfl, show ('Z' : Char).toNat = 90 from rfl]
      exact h
    rw [if_pos hb, if_pos h]
    exact charOfNat_small (by omega)
  · have hb : (decide ('A' ≤ c) && decide (c ≤ 'Z')) = false := by
      simp only [Bool.and_eq_true, decide_eq_true_eq, char_le_iff, Bool.and_eq_false_iff]
      rw [show ('A' : Char).toNat = 65 from rfl, show ('Z' : Char).toNat = 90 from rfl]
      by_cases h1 : 65 ≤ c.toNat
      · right; simp; omega
      · left; simp; omega
    rw [hb, if_neg h]
    rfl

theorem lowerChar_idem (c : Char) : lowerChar (lowerChar c) = lowerChar c := by
  apply charToNat_inj
  rw [lowerChar_toNat, lowerChar_toNat]
  split_ifs <;> omega

theorem lowerStr_idem (l : List Char) : lowerStr (lowerStr l) = lowerStr l := by
  unfold lowerStr
  rw [List.map_map]
  exact List.map_congr_left (fun c _ => lowerChar_idem c)

theorem lowerChar_ne {c d : Char} (hd : ¬ (97 ≤ d.toNat ∧ d.toNat ≤ 122))
    (h : ¬ c = d) : ¬ lowerChar c = d := by
  intro hc
  apply h
  apply charToNat_inj
  have h1 := lowerChar_toNat c
  rw [hc] at h1
  by_cases h2 : 65 ≤ c.toNat ∧ c.toNat ≤ 90
  · rw [if_pos h2] at h1
    omega
  · rw [if_neg h2] at h1
    omega

theorem not_mem_lowerStr {d : Char} {l : List Char}
    (hd : ¬ (97 ≤ d.toNat ∧ d.toNat ≤ 122)) (h : d ∉ l) : d ∉ lowerStr l := by
  intro hm
  obtain ⟨c, hc, hcd⟩ := List.mem_map.mp hm
  exact lowerChar_ne hd (fun he => h (he ▸ hc)) hcd

theorem isSchemeChar_lower {c : Char} (h : isSchemeChar c = true) :
    isSchemeChar (lowerChar c) = true := by
  rw [isSchemeChar_iff] at h ⊢
  rw [lowerChar_toNat]
  split_ifs <;> omega

theorem isAsciiAlpha_lower {c : Char} (h : isAsciiAlpha c = true) :
    isAsciiAlpha (lowerChar c) = true := by
  rw [isAsciiAlpha_iff] at h ⊢
  rw [lowerChar_toNat]
  split_ifs <;> omega

theorem validScheme_all {s : List Char} (h : validScheme s = true) :
    ∀ c ∈ s, isSchemeChar c = true := by
  cases s with
  | nil => simp
  | cons c cs =>
    unfold validScheme at h
    simp only [Bool.and_eq_true, List.all_eq_true] at h
    exact h.2

theorem validScheme_lower {s : List Char} (h : validScheme s = true) :
    validScheme (lowerStr s) = true := by
  cases s with
  | nil => simp [validScheme] at h
  | cons c cs =>
    unfold validScheme at h ⊢
    simp only [lowerStr, List.map_cons]
    simp only [Bool.and_eq_true, List.all_eq_true] at h ⊢
    refine ⟨isAsciiAlpha_lower h.1, ?_⟩
    intro x hx
    rcases List.mem_cons.mp hx with rfl | hx'
    · exact isSchemeChar_lower (h.2 c (List.mem_cons_self _ _))
    · obtain ⟨y, hy, rfl⟩ := List.mem_map.mp hx'
      exact isSchemeChar_lower (h.2 y (List.mem_cons_of_mem _ hy))

theorem validScheme_not_mem {s : List Char} (h : validScheme s = true) {d : Char}
    (hd : d.toNat = 58 ∨ d.toNat = 47 ∨ d.toNat = 63 ∨ d.toNat = 35 ∨ d.toNat = 59) :
    d ∉ s := by
  intro hm
  have := validScheme_all h d hm
  rw [isSchemeChar_iff] at this
  omega

/-! ## List splitting and trimming lemmas -/

theorem splitAtFirst_of_not_mem {d : Char} : ∀ {l : List Char}, d ∉ l →
    splitAtFirst d l = (l, none) := by
  intro l
  induction l with
  | nil => intro _; rfl
  | cons c cs ih =>
    intro h
    have hcd : ¬ c = d := fun hc => h (hc ▸ List.mem_cons_self _ _)
    unfold splitAtFirst
    rw [if_neg hcd, ih (fun hm => h (List.mem_cons_of_mem _ hm))]

theorem splitAtFirst_append {d : Char} : ∀ {a : List Char}, d ∉ a → ∀ (b : List Char),
    splitAtFirst d (a ++ d :: b) = (a, some b) := by
  intro a
  induction a with
  | nil =>
    intro _ b
    simp [splitAtFirst]
  | cons c cs ih =>
    intro h b
    have hcd : ¬ c = d := fun hc => h (hc ▸ List.mem_cons_self _ _)
    rw [List.cons_append]
    unfold splitAtFirst
    rw [if_neg hcd, ih (fun hm => h (List.mem_cons_of_mem _ hm)) b]

theorem splitAtFirst_none_elim {d : Char} : ∀ {l a : List Char},
    splitAtFirst d l = (a, none) → a = l ∧ d ∉ l := by
  intro l
  induction l with
  | nil =>
    intro a h
    unfold splitAtFirst at h
    simp only [Prod.mk.injEq] at h
    exact ⟨h.1.symm, by simp⟩
  | cons c cs ih =>
    intro a h
    unfold splitAtFirst at h
    by_cases hcd : c = d
    · rw [if_pos hcd] at h
      simp at h
    · rw [if_neg hcd] at h
      simp only [Prod.mk.injEq] at h
      cases hr : splitAtFirst d cs with
      | mk a2 o2 =>
        rw [hr] at h
        simp only at h
        obtain ⟨h1, h2⟩ := h
        subst h2
        obtain ⟨ha2, hdm⟩ := ih hr
        subst ha2
        refine ⟨h1.symm, ?_⟩
        intro hm
        rcases List.mem_cons.mp hm with rfl | hm'
        · exact hcd rfl
        · exact hdm hm'

theorem splitAtFirst_some_elim {d : Char} : ∀ {l a b : List Char},
    splitAtFirst d l = (a, some b) → l = a ++ d :: b ∧ d ∉ a := by
  intro l
  induction l with
  | nil =>
    intro a b h
    unfold splitAtFirst at h
    simp at h
  | cons c cs ih =>
    intro a b h
    unfold splitAtFirst at h
    by_cases hcd : c = d
    · rw [if_pos hcd] at h
      simp only [Prod.mk.injEq, Option.some.injEq] at h
      subst hcd
      rw [← h.1, ← h.2]
      exact ⟨rfl, by simp⟩
    · rw [if_neg hcd] at h
      simp only [Prod.mk.injEq] at h
      cases hr : splitAtFirst d cs with
      | mk a2 o2 =>
        rw [hr] at h
        simp only at h
        obtain ⟨h1, h2⟩ := h
        subst h2
        obtain ⟨hcs, hdm⟩ := ih hr
        rw [← h1, hcs]
        refine ⟨rfl, ?_⟩
        intro hm
        rcases List.mem_cons.mp hm with rfl | hm'
        · exact hcd rfl
        · exact hdm hm'

theorem takeWhile_all {p : Char → Bool} : ∀ {l : List Char}, (∀ c ∈ l, p c = true) →
    l.takeWhile p = l := by
  intro l
  induction l with
  | nil => intro _; rfl
  | cons c cs ih =>
    intro h
    rw [List.takeWhile_cons, h c (List.mem_cons_self _ _), ih (fun x hx => h x (List.mem_cons_of_mem _ hx))]
    simp

theorem takeWhile_append_all {p : Char → Bool} : ∀ {a : List Char},
    (∀ c ∈ a, p c = true) → ∀ (b : List Char),
    (a ++ b).takeWhile p = a ++ b.takeWhile p := by
  intro a
  induction a with
  | nil => intro _ b; rfl
  | cons c cs ih =>
    intro h b
    rw [List.cons_append, List.takeWhile_cons, h c (List.mem_cons_self _ _),
      ih (fun x hx => h x (List.mem_cons_of_mem _ hx)) b]
    simp

theorem dropWhile_all {p : Char → Bool} : ∀ {a : List Char},
    (∀ c ∈ a, p c = true) → ∀ (b : List Char),
    (a ++ b).dropWhile p = b.dropWhile p := by
  intro a
  induction a with
  | nil => intro _ b; rfl
  | cons c cs ih =>
    intro h b
    rw [List.cons_append, List.dropWhile_cons, h c (List.mem_cons_self _ _)]
    simp only [if_true]
    exact ih (fun x hx => h x (List.mem_cons_of_mem _ hx)) b

theorem dropWhile_cons_false {p : Char → Bool} {c : Char} (h : p c = false)
    (l : List Char) : (c :: l).dropWhile p = c :: l := by
  rw [List.dropWhile_cons, h]
  simp

theorem dropWhile_head_false {p : Char → Bool} : ∀ (l : List Char),
    l.dropWhile p = [] ∨ ∃ c cs, l.dropWhile p = c :: cs ∧ p c = false := by
  intro l
  induction l with
  | nil => exact Or.inl rfl
  | cons c cs ih =>
    rw [List.dropWhile_cons]
    cases hp : p c
    · exact Or.inr ⟨c, cs, by simp, hp⟩
    · simpa using ih

theorem normPath_ne_nil (l : List Char) : normPath l ≠ [] := by
  simp only [normPath]
  split
  · simp
  · assumption

theorem normPath_spec (l : List Char) :
    normPath l = ['/'] ∨ ∃ c cs, normPath l = cs ++ [c] ∧ ¬ c = '/' := by
  unfold normPath dropTrailingSlashes
  rcases dropWhile_head_false (p := fun c => c = '/') l.reverse with h | ⟨c, cs, h, hc⟩
  · rw [h]
    simp
  · rw [h]
    right
    refine ⟨c, cs.reverse, ?_, by simpa using hc⟩
    have : (c :: cs).reverse ≠ [] := by simp
    rw [if_neg this]
    simp

theorem normPath_of_fix {l : List Char}
    (h : l = ['/'] ∨ ∃ c cs, l = cs ++ [c] ∧ ¬ c = '/') : normPath l = l := by
  rcases h with rfl | ⟨c, cs, rfl, hc⟩
  · rfl
  · unfold normPath dropTrailingSlashes
    rw [List.reverse_append]
    simp only [List.reverse_cons, List.reverse_nil, List.nil_append, List.singleton_append]
    rw [dropWhile_cons_false (by simpa using hc)]
    have : (c :: cs.reverse).reverse ≠ [] := by simp
    rw [if_neg this]
    simp

theorem normPath_idem (l : List Char) : normPath (normPath l) = normPath l :=
  normPath_of_fix (normPath_spec l)

theorem mem_normPath {c : Char} {l : List Char} (h : c ∈ normPath l) :
    c ∈ l ∨ c = '/' := by
  simp only [normPath, dropTrailingSlashes] at h
  split at h
  · right
    simpa using h
  · left
    rw [List.mem_reverse] at h
    have h2 := (List.dropWhile_sublist (l := l.reverse) (p := fun c => c = '/')).subset h
    simpa using h2

theorem dropTrailingSlashes_decomp (l : List Char) :
    ∃ s, l = dropTrailingSlashes l ++ s ∧ ∀ c ∈ s, c = '/' := by
  refine ⟨(l.reverse.takeWhile (fun c => c = '/')).reverse, ?_, ?_⟩
  · unfold dropTrailingSlashes
    rw [← List.reverse_append, List.takeWhile_append_dropWhile, List.reverse_reverse]
  · intro c hc
    rw [List.mem_reverse] at hc
    have := List.mem_takeWhile_imp hc
    simpa using this

/-! ## UTF-8 codec lemmas -/

theorem utf8EncodeChar_ne_nil (c : Char) : utf8EncodeChar c ≠ [] := by
  simp only [utf8EncodeChar]
  split_ifs <;> simp

theorem utf8EncodeChar_lt_256 (c : Char) : ∀ b ∈ utf8EncodeChar c, b < 256 := by
  have hb := char_toNat_bound c
  simp only [utf8EncodeChar]
  split_ifs with h1 h2 h3 <;> intro b hb2 <;> simp only [List.mem_cons,
    List.mem_singleton, List.not_mem_nil, or_false] at hb2
  · omega
  · rcases hb2 with rfl | rfl <;> omega
  · rcases hb2 with rfl | rfl | rfl <;> omega
  · rcases hb2 with rfl | rfl | rfl | rfl <;> omega

theorem utf8DecodeAux_succ : ∀ (f : Nat) (l : List Nat), l.length ≤ f →
    utf8DecodeAux (f + 1) l = utf8DecodeAux f l := by
  intro f
  induction f with
  | zero =>
    intro l hl
    have : l = [] := by cases l with | nil => rfl | cons a r => simp at hl
    subst this
    rfl
  | succ f ih =>
    intro l hl
    cases l with
    | nil => rfl
    | cons b bs =>
      have hbs : bs.length ≤ f := by
        simp only [List.length_cons] at hl
        omega
      simp only [utf8DecodeAux]
      by_cases h1 : b < 0x80
      · simp only [h1, if_true, ih bs hbs]
      · by_cases h2 : b < 0xC2
        · simp only [h1, h2, if_true, if_false, ih bs hbs]
        · by_cases h3 : b < 0xE0
          · simp only [h1, h2, h3, if_true, if_false]
            cases bs with
            | nil => rfl
            | cons b1 bs1 =>
              have hbs1 : bs1.length ≤ f := by
                simp only [List.length_cons] at hbs
                omega
              by_cases hc : isContinuation b1 = true
              · simp only [hc, if_true, ih bs1 hbs1]
              · simp only [hc, Bool.false_eq_true, if_false, ih (b1 :: bs1) hbs]
          · by_cases h4 : b < 0xF0
            · simp only [h1, h2, h3, h4, if_true, if_false]
              cases bs with
              | nil => rfl
              | cons b1 bs' =>
                cases bs' with
                | nil => rfl
                | cons b2 bs2 =>
                  have hbs2 : bs2.length ≤ f := by
                    simp only [List.length_cons] at hbs
                    omega
                  by_cases hc : (isContinuation b1 && isContinuation b2) = true
                  · simp only [hc, if_true, ih bs2 hbs2]
                  · simp only [hc, Bool.false_eq_true, if_false, ih (b1 :: b2 :: bs2) hbs]
            · by_cases h5 : b < 0xF5
              · simp only [h1, h2, h3, h4, h5, if_true, if_false]
                cases bs with
                | nil => rfl
                | cons b1 bs' =>
                  cases bs' with
                  | nil => rfl
                  | cons b2 bs'' =>
                    cases bs'' with
                    | nil => rfl
                    | cons b3 bs3 =>
                      have hbs3 : bs3.length ≤ f := by
                        simp only [List.length_cons] at hbs
                        omega
                      by_cases hc : (isContinuation b1 && isContinuation b2
                          && isContinuation b3) = true
                      · simp only [hc, if_true, ih bs3 hbs3]
                      · simp only [hc, Bool.false_eq_true, if_false,
                          ih (b1 :: b2 :: b3 :: bs3) hbs]
              · simp only [h1, h2, h3, h4, h5, if_false, ih bs hbs]

theorem utf8DecodeAux_ge : ∀ (f : Nat) (l : List Nat), l.length ≤ f →
    utf8DecodeAux f l = utf8Decode l := by
  intro f
  induction f with
  | zero =>
    intro l hl
    have : l = [] := by cases l with | nil => rfl | cons a r => simp at hl
    subst this
    rfl
  | succ f ih =>
    intro l hl
    by_cases h : l.length ≤ f
    · rw [utf8DecodeAux_succ f l h, ih l h]
    · have : l.length = f + 1 := by omega
      rw [utf8Decode, this]

theorem utf8Decode_encode (c : Char) (rest : List Nat) :
    utf8Decode (utf8EncodeChar c ++ rest) = c :: utf8Decode rest := by
  have hb := char_toNat_bound c
  simp only [utf8EncodeChar]
  by_cases h1 : c.toNat < 128
  · rw [if_pos h1]
    show utf8Decode (c.toNat :: rest) = c :: utf8Decode rest
    rw [utf8Decode]
    simp only [List.length_cons, utf8DecodeAux, h1, if_true, charOfNat_toNat_self]
    rw [utf8DecodeAux_ge rest.length rest (le_refl _)]
  · rw [if_neg h1]
    by_cases h2 : c.toNat < 2048
    · rw [if_pos h2]
      show utf8Decode ((0xC0 + c.toNat / 64) :: (0x80 + c.toNat % 64) :: rest)
        = c :: utf8Decode rest
      have c1 : ¬ (0xC0 + c.toNat / 64 < 0x80) := by omega
      have c2 : ¬ (0xC0 + c.toNat / 64 < 0xC2) := by omega
      have c3 : 0xC0 + c.toNat / 64 < 0xE0 := by omega
      have c4 : isContinuation (0x80 + c.toNat % 64) = true := by
        simp only [isContinuation, Bool.and_eq_true, decide_eq_true_eq]
        omega
      rw [utf8Decode]
      simp only [List.length_cons, utf8DecodeAux, c1, c2, c3, c4, if_true, if_false]
      have hval : (0xC0 + c.toNat / 64 - 0xC0) * 64 + (0x80 + c.toNat % 64 - 0x80)
          = c.toNat := by omega
      rw [hval, charOfNat_toNat_self, utf8DecodeAux_ge (rest.length + 1) rest (by omega)]
    · rw [if_neg h2]
      by_cases h3 : c.toNat < 65536
      · rw [if_pos h3]
        show utf8Decode ((0xE0 + c.toNat / 4096) :: (0x80 + c.toNat / 64 % 64)
            :: (0x80 + c.toNat % 64) :: rest) = c :: utf8Decode rest
        have c1 : ¬ (0xE0 + c.toNat / 4096 < 0x80) := by omega
        have c2 : ¬ (0xE0 + c.toNat / 4096 < 0xC2) := by omega
        have c3 : ¬ (0xE0 + c.toNat / 4096 < 0xE0) := by omega
        have c4 : 0xE0 + c.toNat / 4096 < 0xF0 := by omega
        have c5 : isContinuation (0x80 + c.toNat / 64 % 64) = true := by
          simp only [isContinuation, Bool.and_eq_true, decide_eq_true_eq]
          omega
        have c6 : isContinuation (0x80 + c.toNat % 64) = true := by
          simp only [isContinuation, Bool.and_eq_true, decide_eq_true_eq]
          omega
        rw [utf8Decode]
        simp only [List.length_cons, utf8DecodeAux, c1, c2, c3, c4, c5, c6,
          Bool.and_self, if_true, if_false]
        have hval : (0xE0 + c.toNat / 4096 - 0xE0) * 4096
            + (0x80 + c.toNat / 64 % 64 - 0x80) * 64 + (0x80 + c.toNat % 64 - 0x80)
            = c.toNat := by omega
        rw [hval, charOfNat_toNat_self, utf8DecodeAux_ge (rest.length + 2) rest (by omega)]
      · rw [if_neg h3]
        show utf8Decode ((0xF0 + c.toNat / 262144) :: (0x80 + c.toNat / 4096 % 64)
            :: (0x80 + c.toNat / 64 % 64) :: (0x80 + c.toNat % 64) :: rest)
            = c :: utf8Decode rest
        have c1 : ¬ (0xF0 + c.toNat / 262144 < 0x80) := by omega
        have c2 : ¬ (0xF0 + c.toNat / 262144 < 0xC2) := by omega
        have c3 : ¬ (0xF0 + c.toNat / 262144 < 0xE0) := by omega
        have c4 : ¬ (0xF0 + c.toNat / 262144 < 0xF0) := by omega
        have c5 : 0xF0 + c.toNat / 262144 < 0xF5 := by omega
        have c6 : isContinuation (0x80 + c.toNat / 4096 % 64) = true := by
          simp only [isContinuation, Bool.and_eq_true, decide_eq_true_eq]
          omega
        have c7 : isContinuation (0x80 + c.toNat / 64 % 64) = true := by
          simp only [isContinuation, Bool.and_eq_true, decide_eq_true_eq]
          omega
        have c8 : isContinuation (0x80 + c.toNat % 64) = true := by
          simp only [isContinuation, Bool.and_eq_true, decide_eq_true_eq]
          omega
        rw [utf8Decode]
        simp only [List.length_cons, utf8DecodeAux, c1, c2, c3, c4, c5, c6, c7, c8,
          Bool.and_self, if_true, if_false]
        have hval : (0xF0 + c.toNat / 262144 - 0xF0) * 262144
            + (0x80 + c.toNat / 4096 % 64 - 0x80) * 4096
            + (0x80 + c.toNat / 64 % 64 - 0x80) * 64 + (0x80 + c.toNat % 64 - 0x80)
            = c.toNat := by omega
        rw [hval, charOfNat_toNat_self, utf8DecodeAux_ge (rest.length + 3) rest (by omega)]

theorem utf8Decode_encodeList (l : List Char) : utf8Decode (utf8EncodeList l) = l := by
  induction l with
  | nil => rfl
  | cons c cs ih =>
    show utf8Decode (utf8EncodeChar c ++ utf8EncodeList cs) = c :: cs
    rw [utf8Decode_encode, ih]

/-! ## Percent-encoding codec lemmas -/

theorem unquoteBytesAux_succ : ∀ (f : Nat) (l : List Char), l.length ≤ f →
    unquoteBytesAux (f + 1) l = unquoteBytesAux f l := by
  intro f
  induction f with
  | zero =>
    intro l hl
    have : l = [] := by cases l with | nil => rfl | cons a r => simp at hl
    subst this
    rfl
  | succ f ih =>
    intro l hl
    cases l with
    | nil => rfl
    | cons c rest =>
      have hrest : rest.length ≤ f := by
        simp only [List.length_cons] at hl
        omega
      simp only [unquoteBytesAux]
      by_cases hp : c = '%'
      · simp only [hp, if_true]
        cases rest with
        | nil => simp only [ih [] hrest]
        | cons c1 rest' =>
          cases rest' with
          | nil => simp only [ih _ hrest]
          | cons c2 rest2 =>
            have hrest2 : rest2.length ≤ f := by
              simp only [List.length_cons] at hrest
              omega
            cases hv1 : hexVal c1 with
            | some hi =>
              cases hv2 : hexVal c2 with
              | some lo => simp only [hv1, hv2, ih rest2 hrest2]
              | none => simp only [hv1, hv2, ih _ hrest]
            | none =>
              cases hv2 : hexVal c2 with
              | some lo => simp only [hv1, hv2, ih _ hrest]
              | none => simp only [hv1, hv2, ih _ hrest]
      · by_cases hq : c = '+'
        · simp [hp, hq, ih rest hrest]
        · simp [hp, hq, ih rest hrest]

theorem unquoteBytesAux_ge : ∀ (f : Nat) (l : List Char), l.length ≤ f →
    unquoteBytesAux f l = unquoteBytes l := by
  intro f
  induction f with
  | zero =>
    intro l hl
    have : l = [] := by cases l with | nil => rfl | cons a r => simp at hl
    subst this
    rfl
  | succ f ih =>
    intro l hl
    by_cases h : l.length ≤ f
    · rw [unquoteBytesAux_succ f l h, ih l h]
    · have : l.length = f + 1 := by omega
      rw [unquoteBytes, this]

theorem unquoteBytes_cons_other {c : Char} (h1 : ¬ c = '%') (h2 : ¬ c = '+')
    (r : List Char) : unquoteBytes (c :: r) = utf8EncodeChar c ++ unquoteBytes r := by
  rw [unquoteBytes]
  simp only [List.length_cons, unquoteBytesAux, h1, h2, if_false]
  rfl

theorem unquoteBytes_plus (r : List Char) :
    unquoteBytes ('+' :: r) = 32 :: unquoteBytes r := by
  rw [unquoteBytes]
  simp [unquoteBytesAux, show ¬ ('+' : Char) = '%' from by decide]
  rfl

theorem hexVal_toNat (c : Char) : hexVal c =
    if 48 ≤ c.toNat ∧ c.toNat ≤ 57 then some (c.toNat - 48)
    else if 97 ≤ c.toNat ∧ c.toNat ≤ 102 then some (c.toNat - 87)
    else if 65 ≤ c.toNat ∧ c.toNat ≤ 70 then some (c.toNat - 55)
    else none := by
  unfold hexVal
  simp only [char_le_iff]
  rw [show ('0' : Char).toNat = 48 from rfl, show ('9' : Char).toNat = 57 from rfl,
    show ('a' : Char).toNat = 97 from rfl, show ('f' : Char).toNat = 102 from rfl,
    show ('A' : Char).toNat = 65 from rfl, show ('F' : Char).toNat = 70 from rfl]

theorem hexDigitUpper_toNat {n : Nat} (h : n < 16) :
    (hexDigitUpper n).toNat = if n < 10 then 48 + n else 55 + n := by
  unfold hexDigitUpper
  split_ifs with h1
  · exact charOfNat_small (by omega)
  · exact charOfNat_small (by omega)

theorem hexVal_hexDigitUpper {n : Nat} (h : n < 16) :
    hexVal (hexDigitUpper n) = some n := by
  rw [hexVal_toNat, hexDigitUpper_toNat h]
  by_cases h1 : n < 10
  · rw [if_pos h1, if_pos (by omega)]
    congr 1
    omega
  · rw [if_neg h1, if_neg (by omega), if_neg (by omega), if_pos (by omega)]
    congr 1
    omega

theorem unquoteBytes_percent {b : Nat} (hb : b < 256) (r : List Char) :
    unquoteBytes (percentEncodeByte b ++ r) = b :: unquoteBytes r := by
  show unquoteBytes ('%' :: hexDigitUpper (b / 16) :: hexDigitUpper (b % 16) :: r) = _
  have hlen : ('%' :: hexDigitUpper (b / 16) :: hexDigitUpper (b % 16) :: r).length
      = (r.length + 2) + 1 := by
    simp only [List.length_cons]
  rw [unquoteBytes, hlen, unquoteBytesAux, if_pos rfl]
  simp only [hexVal_hexDigitUpper (show b / 16 < 16 by omega),
    hexVal_hexDigitUpper (show b % 16 < 16 by omega)]
  rw [show b / 16 * 16 + b % 16 = b by omega,
    unquoteBytesAux_ge (r.length + 2) r (by omega)]

theorem unquoteBytes_foldrPercent {bs : List Nat} (h : ∀ b ∈ bs, b < 256)
    (rest : List Char) :
    unquoteBytes (bs.foldr (fun b acc => percentEncodeByte b ++ acc) [] ++ rest)
      = bs ++ unquoteBytes rest := by
  induction bs with
  | nil => simp
  | cons b bs' ih =>
    show unquoteBytes ((percentEncodeByte b
      ++ bs'.foldr (fun b acc => percentEncodeByte b ++ acc) []) ++ rest) = _
    rw [List.append_assoc, unquoteBytes_percent (h b (List.mem_cons_self _ _)),
      ih (fun x hx => h x (List.mem_cons_of_mem _ hx))]
    rfl

theorem unquoteBytes_quotePlusChar (c : Char) (rest : List Char) :
    unquoteBytes (quotePlusChar c ++ rest) = utf8EncodeChar c ++ unquoteBytes rest := by
  unfold quotePlusChar
  by_cases hs : isUrlSafe c = true
  · rw [if_pos hs]
    have hc1 : ¬ c = '%' := by
      rw [char_eq_iff, show ('%' : Char).toNat = 37 from rfl]
      rw [isUrlSafe_iff] at hs
      omega
    have hc2 : ¬ c = '+' := by
      rw [char_eq_iff, show ('+' : Char).toNat = 43 from rfl]
      rw [isUrlSafe_iff] at hs
      omega
    show unquoteBytes (c :: rest) = _
    rw [unquoteBytes_cons_other hc1 hc2]
  · rw [if_neg hs]
    by_cases hsp : c = ' '
    · rw [if_pos hsp, hsp]
      show unquoteBytes ('+' :: rest) = utf8EncodeChar ' ' ++ unquoteBytes rest
      rw [unquoteBytes_plus]
      rfl
    · rw [if_neg hsp]
      exact unquoteBytes_foldrPercent (utf8EncodeChar_lt_256 c) rest

theorem unquoteBytes_quotePlus (l : List Char) :
    unquoteBytes (quotePlus l) = utf8EncodeList l := by
  induction l with
  | nil => rfl
  | cons c cs ih =>
    show unquoteBytes (quotePlusChar c ++ quotePlus cs) = _
    rw [unquoteBytes_quotePlusChar, ih]
    rfl

theorem unquotePlus_quotePlus (l : List Char) : unquotePlus (quotePlus l) = l := by
  unfold unquotePlus
  rw [unquoteBytes_quotePlus, utf8Decode_encodeList]

theorem mem_percentEncodeByte {c : Char} {b : Nat} (hb : b < 256)
    (h : c ∈ percentEncodeByte b) :
    c = '%' ∨ ∃ n, n < 16 ∧ c = hexDigitUpper n := by
  unfold percentEncodeByte at h
  simp only [List.mem_cons, List.not_mem_nil, or_false] at h
  rcases h with rfl | rfl | rfl
  · exact Or.inl rfl
  · exact Or.inr ⟨b / 16, by omega, rfl⟩
  · exact Or.inr ⟨b % 16, by omega, rfl⟩

theorem mem_quotePlus {c' : Char} : ∀ {l : List Char}, c' ∈ quotePlus l →
    isUrlSafe c' = true ∨ c' = '+' ∨ c' = '%'
      ∨ (48 ≤ c'.toNat ∧ c'.toNat ≤ 57) ∨ (65 ≤ c'.toNat ∧ c'.toNat ≤ 70) := by
  intro l
  induction l with
  | nil => intro h; simp [quotePlus] at h
  | cons c cs ih =>
    intro h
    rcases List.mem_append.mp (by simpa [quotePlus] using h) with h1 | h2
    · unfold quotePlusChar at h1
      split_ifs at h1 with hs hsp
      · simp only [List.mem_singleton] at h1
        subst h1
        exact Or.inl hs
      · simp only [List.mem_singleton] at h1
        subst h1
        exact Or.inr (Or.inl rfl)
      · have : ∀ bs : List Nat, (∀ b ∈ bs, b < 256) →
            c' ∈ bs.foldr (fun b acc => percentEncodeByte b ++ acc) [] →
            c' = '%' ∨ ∃ n, n < 16 ∧ c' = hexDigitUpper n := by
          intro bs
          induction bs with
          | nil => intro _ hm; simp at hm
          | cons b bs' ih2 =>
            intro hlt hm
            rcases List.mem_append.mp hm with hm1 | hm2
            · exact mem_percentEncodeByte (hlt b (List.mem_cons_self _ _)) hm1
            · exact ih2 (fun x hx => hlt x (List.mem_cons_of_mem _ hx)) hm2
        rcases this (utf8EncodeChar c) (utf8EncodeChar_lt_256 c) h1 with rfl | ⟨n, hn, rfl⟩
        · exact Or.inr (Or.inr (Or.inl rfl))
        · rw [hexDigitUpper_toNat hn]
          split_ifs with h10
          · exact Or.inr (Or.inr (Or.inr (Or.inl (by omega))))
          · exact Or.inr (Or.inr (Or.inr (Or.inr (by omega))))
    · exact ih h2

theorem quotePlus_no_delim {c' : Char} {l : List Char} (h : c' ∈ quotePlus l) :
    ¬ (c'.toNat = 61 ∨ c'.toNat = 38 ∨ c'.toNat = 35 ∨ c'.toNat = 63 ∨ c'.toNat = 59) := by
  have hm := mem_quotePlus h
  rcases hm with hs | rfl | rfl | hd | hd
  · rw [isUrlSafe_iff] at hs
    omega
  · intro hc
    simp at hc
  · intro hc
    simp at hc
  · omega
  · omega

theorem quotePlusChar_ne_nil (c : Char) : quotePlusChar c ≠ [] := by
  unfold quotePlusChar
  split_ifs with h1 h2
  · simp
  · simp
  · cases he : utf8EncodeChar c with
    | nil => exact absurd he (utf8EncodeChar_ne_nil c)
    | cons b bs => simp [percentEncodeByte]

theorem quotePlus_ne_nil {l : List Char} (h : l ≠ []) : quotePlus l ≠ [] := by
  cases l with
  | nil => exact absurd rfl h
  | cons c cs =>
    show quotePlusChar c ++ quotePlus cs ≠ []
    simp only [ne_eq, List.append_eq_nil]
    intro hc
    exact quotePlusChar_ne_nil c hc.1

/-! ## Path-segment lemmas (for `_splitparams`) -/

theorem takeWhile_append_of_bad {p : Char → Bool} : ∀ {a : List Char},
    (∃ x ∈ a, p x = false) → ∀ (b : List Char),
    (a ++ b).takeWhile p = a.takeWhile p := by
  intro a
  induction a with
  | nil =>
    intro h b
    simp at h
  | cons c cs ih =>
    intro h b
    rw [List.cons_append, List.takeWhile_cons, List.takeWhile_cons]
    cases hp : p c with
    | false => simp
    | true =>
      have h2 : ∃ x ∈ cs, p x = false := by
        obtain ⟨x, hx, hpx⟩ := h
        rcases List.mem_cons.mp hx with rfl | hx'
        · rw [hp] at hpx
          cases hpx
        · exact ⟨x, hx', hpx⟩
      rw [ih h2 b]

theorem mem_takeWhile_mem {p : Char → Bool} {l : List Char} {x : Char}
    (h : x ∈ l.takeWhile p) : x ∈ l :=
  (List.takeWhile_sublist p).subset h

theorem mem_lastSegment {x : Char} {l : List Char} (h : x ∈ lastSegment l) : x ∈ l := by
  unfold lastSegment at h
  rw [List.mem_reverse] at h
  have := mem_takeWhile_mem h
  simpa using this

theorem lastSegment_no_slash {x : Char} {l : List Char} (h : x ∈ lastSegment l) :
    ¬ x = '/' := by
  unfold lastSegment at h
  rw [List.mem_reverse] at h
  have := List.mem_takeWhile_imp h
  simpa using this

theorem beforeLast_append_lastSegment (l : List Char) :
    beforeLastSegment l ++ lastSegment l = l := by
  unfold beforeLastSegment lastSegment
  rw [← List.reverse_append, List.takeWhile_append_dropWhile, List.reverse_reverse]

theorem mem_beforeLastSegment {x : Char} {l : List Char} (h : x ∈ beforeLastSegment l) :
    x ∈ l := by
  rw [← beforeLast_append_lastSegment l]
  exact List.mem_append_left _ h

theorem lastSegment_append {b : List Char} (hb : ∀ x ∈ b, ¬ x = '/') (a : List Char) :
    lastSegment (a ++ b) = lastSegment a ++ b := by
  unfold lastSegment
  rw [List.reverse_append,
    takeWhile_append_all (fun c hc => by
      rw [decide_eq_true_eq]
      exact hb c (List.mem_reverse.mp hc)),
    List.reverse_append, List.reverse_reverse]

theorem beforeLastSegment_append {b : List Char} (hb : ∀ x ∈ b, ¬ x = '/')
    (a : List Char) : beforeLastSegment (a ++ b) = beforeLastSegment a := by
  unfold beforeLastSegment
  rw [List.reverse_append,
    dropWhile_all (fun c hc => by
      rw [decide_eq_true_eq]
      exact hb c (List.mem_reverse.mp hc)) a.reverse]

theorem splitParams_no_semi {l : List Char} (h : ';' ∉ l) : splitParams l = (l, []) := by
  unfold splitParams
  rw [splitAtFirst_of_not_mem (fun hm => h (mem_lastSegment hm))]

theorem splitParams_append {a b : List Char} (ha : ';' ∉ a) (hb : ∀ x ∈ b, ¬ x = '/') :
    splitParams (a ++ ';' :: b) = (a, b) := by
  have hb' : ∀ x ∈ (';' :: b), ¬ x = '/' := by
    intro x hx
    rcases List.mem_cons.mp hx with rfl | hx'
    · intro hc
      cases hc
    · exact hb x hx'
  unfold splitParams
  rw [lastSegment_append hb' a,
    splitAtFirst_append (fun hm => ha (mem_lastSegment hm)) b]
  show (beforeLastSegment (a ++ ';' :: b) ++ lastSegment a, b) = (a, b)
  rw [beforeLastSegment_append hb' a, beforeLast_append_lastSegment]

/-! ## `parseScheme` and `parseNetloc` lemmas -/

theorem parseScheme_no_colon {l : List Char} (h : ':' ∉ l) : parseScheme l = ([], l) := by
  have ht : l.takeWhile (fun c => c ≠ ':') = l :=
    takeWhile_all (fun c hc => by
      rw [decide_eq_true_eq]
      exact fun he => h (he ▸ hc))
  simp only [parseScheme]
  rw [ht, if_neg (fun hc => absurd hc.1 (lt_irrefl _))]

theorem parseScheme_append {s : List Char} (hv : validScheme s = true) (r : List Char) :
    parseScheme (s ++ ':' :: r) = (lowerStr s, r) := by
  have hns : ':' ∉ s := validScheme_not_mem hv (Or.inl rfl)
  have ht : (s ++ ':' :: r).takeWhile (fun c => c ≠ ':') = s := by
    rw [takeWhile_append_all (fun c hc => by
      rw [decide_eq_true_eq]
      exact fun he => hns (he ▸ hc))]
    rw [List.takeWhile_cons]
    simp
  have hdrop : (s ++ ':' :: r).drop (s.length + 1) = r := by
    rw [show s ++ ':' :: r = (s ++ [':']) ++ r by simp,
      show s.length + 1 = (s ++ [':']).length by simp]
    exact List.drop_left _ _
  simp only [parseScheme]
  rw [ht, if_pos ⟨by simp, hv⟩, hdrop]

theorem parseScheme_head_not_alpha {c : Char} (h : isAsciiAlpha c = false)
    (l : List Char) : parseScheme (c :: l) = ([], c :: l) := by
  have hpre : validScheme ((c :: l).takeWhile (fun x => x ≠ ':')) = false := by
    rw [List.takeWhile_cons]
    by_cases hc : c = ':'
    · simp [hc, validScheme]
    · simp [hc, validScheme, h]
  simp only [parseScheme]
  rw [if_neg (fun hc => by
    rw [hpre] at hc
    exact Bool.false_ne_true hc.2)]

theorem parseScheme_mem_bad {l : List Char} {x : Char}
    (hx : x ∈ l.takeWhile (fun c => c ≠ ':')) (hb : isSchemeChar x = false) :
    parseScheme l = ([], l) := by
  have hpre : validScheme (l.takeWhile (fun c => c ≠ ':')) = false := by
    cases hv : validScheme (l.takeWhile (fun c => c ≠ ':')) with
    | false => rfl
    | true =>
      have := validScheme_all hv x hx
      rw [hb] at this
      cases this
  simp only [parseScheme]
  rw [if_neg (fun hc => by
    rw [hpre] at hc
    exact Bool.false_ne_true hc.2)]

theorem parseNetloc_cons {nl : List Char}
    (hn : ∀ c ∈ nl, ((c ≠ '/' && c ≠ '?' && c ≠ '#') : Bool) = true)
    {X : List Char}
    (hX : X.takeWhile (fun c => c ≠ '/' && c ≠ '?' && c ≠ '#') = []) :
    parseNetloc ('/' :: '/' :: (nl ++ X)) = (nl, X) := by
  have h1 : (nl ++ X).takeWhile (fun c => c ≠ '/' && c ≠ '?' && c ≠ '#') = nl := by
    rw [takeWhile_append_all hn, hX, List.append_nil]
  simp only [parseNetloc]
  rw [h1, List.drop_left]

theorem parseNetloc_other {l : List Char} (h : l.take 2 ≠ ['/', '/']) :
    parseNetloc l = ([], l) := by
  unfold parseNetloc
  split
  · next rest =>
    exact absurd rfl h
  · rfl

/-! ## `splitSep` / `intercalateChar` lemmas -/

theorem splitSep_of_not_mem {d : Char} : ∀ {a : List Char}, d ∉ a →
    splitSep d a = [a] := by
  intro a
  induction a with
  | nil => intro _; rfl
  | cons c cs ih =>
    intro h
    have hcd : ¬ c = d := fun hc => h (hc ▸ List.mem_cons_self _ _)
    unfold splitSep
    rw [if_neg hcd, ih (fun hm => h (List.mem_cons_of_mem _ hm))]

theorem splitSep_append {d : Char} : ∀ {a : List Char}, d ∉ a → ∀ (y : List Char),
    splitSep d (a ++ d :: y) = a :: splitSep d y := by
  intro a
  induction a with
  | nil =>
    intro _ y
    show splitSep d (d :: y) = [] :: splitSep d y
    conv_lhs => rw [splitSep]
    rw [if_pos rfl]
  | cons c cs ih =>
    intro h y
    have hcd : ¬ c = d := fun hc => h (hc ▸ List.mem_cons_self _ _)
    rw [List.cons_append]
    conv_lhs => rw [splitSep]
    rw [if_neg hcd, ih (fun hm => h (List.mem_cons_of_mem _ hm)) y]

theorem splitSep_intercalate {d : Char} : ∀ {ps : List (List Char)}, ps ≠ [] →
    (∀ p ∈ ps, d ∉ p) → splitSep d (intercalateChar d ps) = ps := by
  intro ps
  induction ps with
  | nil => intro h _; exact absurd rfl h
  | cons a rest ih =>
    intro _ h
    cases rest with
    | nil => exact splitSep_of_not_mem (h a (List.mem_cons_self _ _))
    | cons b rest' =>
      show splitSep d (a ++ d :: intercalateChar d (b :: rest')) = a :: (b :: rest')
      rw [splitSep_append (h a (List.mem_cons_self _ _)),
        ih (by simp) (fun p hp => h p (List.mem_cons_of_mem _ hp))]

theorem mem_intercalateChar {c d : Char} : ∀ {ps : List (List Char)},
    c ∈ intercalateChar d ps → c = d ∨ ∃ p ∈ ps, c ∈ p := by
  intro ps
  induction ps with
  | nil =>
    intro h
    simp [intercalateChar] at h
  | cons a rest ih =>
    intro h
    cases rest with
    | nil =>
      have h' : c ∈ a := h
      exact Or.inr ⟨a, List.mem_cons_self _ _, h'⟩
    | cons b rest' =>
      have h' : c ∈ a ++ d :: intercalateChar d (b :: rest') := h
      rcases List.mem_append.mp h' with h1 | h2
      · exact Or.inr ⟨a, List.mem_cons_self _ _, h1⟩
      · rcases List.mem_cons.mp h2 with rfl | h3
        · exact Or.inl rfl
        · rcases ih h3 with hd | ⟨p, hp, hcp⟩
          · exact Or.inl hd
          · exact Or.inr ⟨p, List.mem_cons_of_mem _ hp, hcp⟩

/-! ## Nonemptiness of decoded pieces -/

theorem unquoteBytesAux_cons_ne_nil (f : Nat) (c : Char) (rest : List Char) :
    unquoteBytesAux (f + 1) (c :: rest) ≠ [] := by
  show (if c = '%' then
      match rest with
      | c1 :: c2 :: rest2 =>
        match hexVal c1, hexVal c2 with
        | some hi, some lo => (hi * 16 + lo) :: unquoteBytesAux f rest2
        | _, _ => 37 :: unquoteBytesAux f rest
      | _ => 37 :: unquoteBytesAux f rest
    else if c = '+' then 32 :: unquoteBytesAux f rest
    else utf8EncodeChar c ++ unquoteBytesAux f rest) ≠ []
  split_ifs with h1 h2
  · split
    · split
      · simp
      · simp
    · simp
  · simp
  · simp [utf8EncodeChar_ne_nil c]

theorem unquoteBytes_ne_nil {l : List Char} (h : l ≠ []) : unquoteBytes l ≠ [] := by
  cases l with
  | nil => exact absurd rfl h
  | cons c r =>
    show unquoteBytesAux (r.length + 1) (c :: r) ≠ []
    exact unquoteBytesAux_cons_ne_nil r.length c r

theorem utf8Decode_ne_nil {bs : List Nat} (h : bs ≠ []) : utf8Decode bs ≠ [] := by
  cases bs with
  | nil => exact absurd rfl h
  | cons b r =>
    clear h
    show (if b < 0x80 then Char.ofNat b :: utf8DecodeAux r.length r
      else if b < 0xC2 then replacementChar :: utf8DecodeAux r.length r
      else if b < 0xE0 then
        match r with
        | b1 :: bs1 =>
          if isContinuation b1 then
            Char.ofNat ((b - 0xC0) * 64 + (b1 - 0x80)) :: utf8DecodeAux r.length bs1
          else replacementChar :: utf8DecodeAux r.length r
        | [] => [replacementChar]
      else if b < 0xF0 then
        match r with
        | b1 :: b2 :: bs2 =>
          if isContinuation b1 && isContinuation b2 then
            Char.ofNat ((b - 0xE0) * 4096 + (b1 - 0x80) * 64 + (b2 - 0x80))
              :: utf8DecodeAux r.length bs2
          else replacementChar :: utf8DecodeAux r.length r
        | _ => [replacementChar]
      else if b < 0xF5 then
        match r with
        | b1 :: b2 :: b3 :: bs3 =>
          if isContinuation b1 && isContinuation b2 && isContinuation b3 then
            Char.ofNat ((b - 0xF0) * 262144 + (b1 - 0x80) * 4096 + (b2 - 0x80) * 64
                + (b3 - 0x80)) :: utf8DecodeAux r.length bs3
          else replacementChar :: utf8DecodeAux r.length r
        | _ => [replacementChar]
      else replacementChar :: utf8DecodeAux r.length r) ≠ []
    split_ifs with h1 h2 h3 h4
    · simp
    · simp
    · split
      · split_ifs <;> simp
      · simp
    · split
      · split_ifs <;> simp
      · simp
    · split
      · split_ifs <;> simp
      · simp
    · simp

theorem unquotePlus_ne_nil {l : List Char} (h : l ≠ []) : unquotePlus l ≠ [] :=
  utf8Decode_ne_nil (unquoteBytes_ne_nil h)

/-! ## `parse_qsl` / `urlencode` roundtrip -/

theorem parseQsl_mem {l : List Char} : ∀ p ∈ parseQsl l, p.2 ≠ [] := by
  unfold parseQsl
  generalize splitSep '&' l = pieces
  induction pieces with
  | nil => simp
  | cons piece rest ih =>
    intro p hp
    simp only [List.foldr_cons] at hp
    split at hp
    · exact ih p hp
    · split at hp
      · exact ih p hp
      · split at hp
        · exact ih p hp
        · next hv =>
          rcases List.mem_cons.mp hp with rfl | hp'
          · exact unquotePlus_ne_nil hv
          · exact ih p hp'

theorem foldr_qsl_map {ps : List (List Char × List Char)} (hv : ∀ p ∈ ps, p.2 ≠ []) :
    (ps.map (fun p => quotePlus p.1 ++ '=' :: quotePlus p.2)).foldr
      (fun piece acc =>
        if piece = [] then acc
        else
          match splitAtFirst '=' piece with
          | (_, none) => acc
          | (k, some v) => if v = [] then acc else (unquotePlus k, unquotePlus v) :: acc)
      [] = ps := by
  induction ps with
  | nil => rfl
  | cons p rest ih =>
    simp only [List.map_cons, List.foldr_cons]
    have hne : quotePlus p.1 ++ '=' :: quotePlus p.2 ≠ [] := by simp
    rw [if_neg hne]
    have hnm : '=' ∉ quotePlus p.1 := fun hm => quotePlus_no_delim hm (Or.inl rfl)
    rw [splitAtFirst_append hnm]
    show (if quotePlus p.2 = [] then _
      else (unquotePlus (quotePlus p.1), unquotePlus (quotePlus p.2)) :: _) = p :: rest
    rw [if_neg (quotePlus_ne_nil (hv p (List.mem_cons_self _ _))),
      unquotePlus_quotePlus, unquotePlus_quotePlus,
      ih (fun q hq => hv q (List.mem_cons_of_mem _ hq))]

theorem parseQsl_urlencodeL {ps : List (List Char × List Char)}
    (hv : ∀ p ∈ ps, p.2 ≠ []) : parseQsl (urlencodeL ps) = ps := by
  cases ps with
  | nil => rfl
  | cons p0 rest =>
    have hd : ∀ q ∈ (p0 :: rest).map (fun p => quotePlus p.1 ++ '=' :: quotePlus p.2),
        '&' ∉ q := by
      intro q hq
      obtain ⟨p, hp, rfl⟩ := List.mem_map.mp hq
      intro hm
      rcases List.mem_append.mp hm with h1 | h2
      · exact quotePlus_no_delim h1 (Or.inr (Or.inl rfl))
      · rcases List.mem_cons.mp h2 with he | h3
        · exact absurd he (by decide)
        · exact quotePlus_no_delim h3 (Or.inr (Or.inl rfl))
    unfold parseQsl urlencodeL
    rw [splitSep_intercalate (by simp) hd]
    exact foldr_qsl_map hv

/-! ## Character sets of `urlencode` output -/

theorem mem_urlencodeL {c : Char} {ps : List (List Char × List Char)}
    (h : c ∈ urlencodeL ps) :
    isUrlSafe c = true ∨ c.toNat = 43 ∨ c.toNat = 37 ∨ (48 ≤ c.toNat ∧ c.toNat ≤ 57)
      ∨ (65 ≤ c.toNat ∧ c.toNat ≤ 70) ∨ c.toNat = 61 ∨ c.toNat = 38 := by
  unfold urlencodeL at h
  rcases mem_intercalateChar h with rfl | ⟨q, hq, hcq⟩
  · right; right; right; right; right; right; rfl
  · obtain ⟨p, _, rfl⟩ := List.mem_map.mp hq
    rcases List.mem_append.mp hcq with h1 | h2
    · rcases mem_quotePlus h1 with hs | rfl | rfl | hd | hd
      · exact Or.inl hs
      · right; left; rfl
      · right; right; left; rfl
      · right; right; right; left; exact hd
      · right; right; right; right; left; exact hd
    · rcases List.mem_cons.mp h2 with rfl | h3
      · right; right; right; right; right; left; rfl
      · rcases mem_quotePlus h3 with hs | rfl | rfl | hd | hd
        · exact Or.inl hs
        · right; left; rfl
        · right; right; left; rfl
        · right; right; right; left; exact hd
        · right; right; right; right; left; exact hd

theorem urlencodeL_no_mem {c : Char} {ps : List (List Char × List Char)}
    (h : c ∈ urlencodeL ps)
    (hc : c.toNat = 35 ∨ c.toNat = 63 ∨ c.toNat = 58 ∨ c.toNat = 47 ∨ c.toNat = 59) :
    False := by
  rcases mem_urlencodeL h with hs | h' | h' | h' | h' | h' | h'
  · rw [isUrlSafe_iff] at hs
    omega
  all_goals omega

/-! ## Ordering lemmas for `sorted` -/

theorem leChars_total : ∀ (a b : List Char), leChars a b = true ∨ leChars b a = true := by
  intro a
  induction a with
  | nil => intro b; exact Or.inl rfl
  | cons x xs ih =>
    intro b
    cases b with
    | nil => exact Or.inr rfl
    | cons y ys =>
      rcases Nat.lt_trichotomy x.toNat y.toNat with h1 | h1 | h1
      · left
        rw [leChars, if_pos h1]
      · rcases ih ys with h | h
        · left
          rw [leChars, if_neg (by omega), if_neg (by omega)]
          exact h
        · right
          rw [leChars, if_neg (by omega), if_neg (by omega)]
          exact h
      · right
        rw [leChars, if_pos h1]

theorem leChars_trans : ∀ (a b c : List Char), leChars a b = true →
    leChars b c = true → leChars a c = true := by
  intro a
  induction a with
  | nil => intro b c _ _; rfl
  | cons x xs ih =>
    intro b c hab hbc
    cases b with
    | nil => simp [leChars] at hab
    | cons y ys =>
      cases c with
      | nil => simp [leChars] at hbc
      | cons z zs =>
        rw [leChars] at hab hbc ⊢
        have hxy : x.toNat < y.toNat ∨ (x.toNat = y.toNat ∧ leChars xs ys = true) := by
          by_cases h1 : x.toNat < y.toNat
          · exact Or.inl h1
          · rw [if_neg h1] at hab
            by_cases h2 : y.toNat < x.toNat
            · rw [if_pos h2] at hab
              cases hab
            · rw [if_neg h2] at hab
              exact Or.inr ⟨by omega, hab⟩
        have hyz : y.toNat < z.toNat ∨ (y.toNat = z.toNat ∧ leChars ys zs = true) := by
          by_cases h1 : y.toNat < z.toNat
          · exact Or.inl h1
          · rw [if_neg h1] at hbc
            by_cases h2 : z.toNat < y.toNat
            · rw [if_pos h2] at hbc
              cases hbc
            · rw [if_neg h2] at hbc
              exact Or.inr ⟨by omega, hbc⟩
        rcases hxy with h1 | ⟨h1, hr1⟩ <;> rcases hyz with h2 | ⟨h2, hr2⟩
        · rw [if_pos (by omega)]
        · rw [if_pos (by omega)]
        · rw [if_pos (by omega)]
        · rw [if_neg (by omega), if_neg (by omega)]
          exact ih ys zs hr1 hr2

theorem leChars_antisymm : ∀ (a b : List Char), leChars a b = true →
    leChars b a = true → a = b := by
  intro a
  induction a with
  | nil =>
    intro b _ hba
    cases b with
    | nil => rfl
    | cons y ys => simp [leChars] at hba
  | cons x xs ih =>
    intro b hab hba
    cases b with
    | nil => simp [leChars] at hab
    | cons y ys =>
      rw [leChars] at hab hba
      by_cases h1 : x.toNat < y.toNat
      · rw [if_neg (by omega), if_pos h1] at hba
        cases hba
      · by_cases h2 : y.toNat < x.toNat
        · rw [if_neg h1, if_pos h2] at hab
          cases hab
        · rw [if_neg h1, if_neg h2] at hab
          rw [if_neg h2, if_neg h1] at hba
          have hx : x = y := charToNat_inj (by omega)
          rw [hx, ih ys hab hba]

theorem lePair_total (p q : List Char × List Char) :
    lePair p q = true ∨ lePair q p = true := by
  unfold lePair
  by_cases h : p.1 = q.1
  · rw [if_pos h, if_pos h.symm]
    exact leChars_total p.2 q.2
  · rw [if_neg h, if_neg (fun he => h he.symm)]
    exact leChars_total p.1 q.1

theorem lePair_trans {p q r : List Char × List Char} (h1 : lePair p q = true)
    (h2 : lePair q r = true) : lePair p r = true := by
  unfold lePair at h1 h2 ⊢
  by_cases e1 : p.1 = q.1 <;> by_cases e2 : q.1 = r.1
  · rw [if_pos e1] at h1
    rw [if_pos e2] at h2
    rw [if_pos (e1.trans e2)]
    exact leChars_trans _ _ _ h1 h2
  · rw [if_pos e1] at h1
    rw [if_neg e2] at h2
    rw [if_neg (fun he => e2 (e1 ▸ he)), e1]
    exact h2
  · rw [if_neg e1] at h1
    rw [if_neg (fun he => e1 (he.trans e2.symm)), ← e2]
    exact h1
  · rw [if_neg e1] at h1
    rw [if_neg e2] at h2
    by_cases e3 : p.1 = r.1
    · exfalso
      apply e1
      rw [← e3] at h2
      exact leChars_antisymm _ _ h1 h2
    · rw [if_neg e3]
      exact leChars_trans _ _ _ h1 h2

instance : IsTotal (List Char × List Char) lePairRel :=
  ⟨fun p q => lePair_total p q⟩

instance : IsTrans (List Char × List Char) lePairRel :=
  ⟨fun _ _ _ h1 h2 => lePair_trans h1 h2⟩

theorem sortPairs_idem (ps : List (List Char × List Char)) :
    sortPairs (sortPairs ps) = sortPairs ps := by
  unfold sortPairs
  exact List.Sorted.insertionSort_eq (List.sorted_insertionSort lePairRel ps)

theorem sortPairs_mem {p : List Char × List Char} {ps : List (List Char × List Char)}
    (h : p ∈ sortPairs ps) : p ∈ ps :=
  (List.perm_insertionSort lePairRel ps).mem_iff.mp h

theorem query_roundtrip (q : List Char) :
    urlencodeL (sortPairs (parseQsl (urlencodeL (sortPairs (parseQsl q)))))
      = urlencodeL (sortPairs (parseQsl q)) := by
  rw [parseQsl_urlencodeL (fun p hp => parseQsl_mem p (sortPairs_mem hp)), sortPairs_idem]

/-! ## Elimination lemmas for the parsing pipeline -/

theorem parseScheme_pre_invalid {l : List Char}
    (hpre : validScheme (l.takeWhile (fun c => c ≠ ':')) = false) :
    parseScheme l = ([], l) := by
  simp only [parseScheme]
  rw [if_neg (fun hc => by
    rw [hpre] at hc
    exact Bool.false_ne_true hc.2)]

theorem validScheme_takeWhile_not_alpha {c : Char} (h : isAsciiAlpha c = false)
    (l : List Char) : validScheme ((c :: l).takeWhile (fun x => x ≠ ':')) = false := by
  rw [List.takeWhile_cons]
  by_cases hc : c = ':'
  · simp [hc, validScheme]
  · simp [hc, validScheme, h]

theorem takeWhile_length_lt {p : Char → Bool} : ∀ {l : List Char},
    (∃ x ∈ l, p x = false) → (l.takeWhile p).length < l.length := by
  intro l
  induction l with
  | nil =>
    intro h
    simp at h
  | cons c cs ih =>
    intro h
    rw [List.takeWhile_cons]
    cases hp : p c with
    | false => simp
    | true =>
      have h2 : ∃ x ∈ cs, p x = false := by
        obtain ⟨x, hx, hpx⟩ := h
        rcases List.mem_cons.mp hx with rfl | hx'
        · rw [hp] at hpx
          cases hpx
        · exact ⟨x, hx', hpx⟩
      simpa using ih h2

theorem dropWhile_eq_drop_len {p : Char → Bool} : ∀ (l : List Char),
    l.dropWhile p = l.drop (l.takeWhile p).length := by
  intro l
  induction l with
  | nil => rfl
  | cons c cs ih =>
    rw [List.dropWhile_cons, List.takeWhile_cons]
    cases hp : p c
    · simp
    · simp [ih]

theorem parseScheme_elim {l s r : List Char} (h : parseScheme l = (s, r)) :
    (s = [] ∧ r = l ∧
      ¬((l.takeWhile (fun c => c ≠ ':')).length < l.length ∧
        validScheme (l.takeWhile (fun c => c ≠ ':')) = true)) ∨
      (∃ pre, validScheme pre = true ∧ s = lowerStr pre ∧ l = pre ++ ':' :: r) := by
  simp only [parseScheme] at h
  split_ifs at h with hc
  · right
    rw [Prod.mk.injEq] at h
    obtain ⟨hs, hr⟩ := h
    obtain ⟨hlen, hv⟩ := hc
    have hdec : l.takeWhile (fun c => c ≠ ':') ++ l.dropWhile (fun c => c ≠ ':') = l :=
      List.takeWhile_append_dropWhile _ _
    rcases dropWhile_head_false (p := fun c => c ≠ ':') l with hdw | ⟨c, cs, hdw, hpc⟩
    · exfalso
      rw [hdw, List.append_nil] at hdec
      rw [hdec] at hlen
      exact lt_irrefl _ hlen
    · have hc' : c = ':' := by simpa using hpc
      subst hc'
      rw [hdw] at hdec
      revert hs hr hv hlen hdec
      generalize l.takeWhile (fun c => c ≠ ':') = pre
      intro hs hr hlen hv hdec
      refine ⟨pre, hv, hs.symm, ?_⟩
      have hdrop : l.drop (pre.length + 1) = cs := by
        rw [← hdec,
          show pre ++ ':' :: cs = (pre ++ [':']) ++ cs by simp,
          show pre.length + 1 = (pre ++ [':']).length by simp]
        exact List.drop_left _ _
      rw [← hr, hdrop, hdec]
  · left
    rw [Prod.mk.injEq] at h
    exact ⟨h.1.symm, h.2.symm, hc⟩

theorem parseNetloc_elim {l nl r : List Char} (h : parseNetloc l = (nl, r)) :
    (nl = [] ∧ r = l ∧ l.take 2 ≠ ['/', '/']) ∨
      (∃ rest, l = '/' :: '/' :: rest ∧
        nl = rest.takeWhile (fun c => c ≠ '/' && c ≠ '?' && c ≠ '#') ∧
        r = rest.drop nl.length) := by
  by_cases h2 : l.take 2 = ['/', '/']
  · right
    obtain ⟨rest, hrest⟩ : ∃ rest, l = '/' :: '/' :: rest := by
      cases l with
      | nil => simp at h2
      | cons a t =>
        cases t with
        | nil => simp at h2
        | cons b t2 =>
          simp only [List.take_succ_cons, List.take_zero] at h2
          injection h2 with ha h3
          injection h3 with hb h4
          exact ⟨t2, by rw [ha, hb]⟩
    subst hrest
    simp only [parseNetloc] at h
    rw [Prod.mk.injEq] at h
    refine ⟨rest, rfl, h.1.symm, ?_⟩
    rw [← h.1]
    exact h.2.symm
  · left
    rw [parseNetloc_other h2, Prod.mk.injEq] at h
    exact ⟨h.1.symm, h.2.symm, h2⟩

theorem splitParams_prefix {l P pr : List Char} (h : splitParams l = (P, pr)) :
    ∃ t, l = P ++ t := by
  unfold splitParams at h
  cases hs : splitAtFirst ';' (lastSegment l) with
  | mk a o =>
    rw [hs] at h
    cases o with
    | none =>
      have h' : (l, ([] : List Char)) = (P, pr) := h
      rw [Prod.mk.injEq] at h'
      exact ⟨[], by rw [List.append_nil]; exact h'.1⟩
    | some b =>
      have h' : (beforeLastSegment l ++ a, b) = (P, pr) := h
      rw [Prod.mk.injEq] at h'
      obtain ⟨hls, -⟩ := splitAtFirst_some_elim hs
      refine ⟨';' :: b, ?_⟩
      rw [← h'.1, List.append_assoc, ← hls, beforeLast_append_lastSegment]

theorem splitParams_params_mem {l P pr : List Char} (h : splitParams l = (P, pr))
    {x : Char} (hx : x ∈ pr) : x ∈ l := by
  unfold splitParams at h
  cases hs : splitAtFirst ';' (lastSegment l) with
  | mk a o =>
    rw [hs] at h
    cases o with
    | none =>
      have h' : (l, ([] : List Char)) = (P, pr) := h
      rw [Prod.mk.injEq] at h'
      rw [← h'.2] at hx
      cases hx
    | some b =>
      have h' : (beforeLastSegment l ++ a, b) = (P, pr) := h
      rw [Prod.mk.injEq] at h'
      rw [← h'.2] at hx
      obtain ⟨hls, -⟩ := splitAtFirst_some_elim hs
      apply mem_lastSegment (l := l)
      rw [hls]
      exact List.mem_append_right _ (List.mem_cons_of_mem _ hx)

theorem splitParams_params_no_slash {l P pr : List Char}
    (h : splitParams l = (P, pr)) : '/' ∉ pr := by
  unfold splitParams at h
  cases hs : splitAtFirst ';' (lastSegment l) with
  | mk a o =>
    rw [hs] at h
    cases o with
    | none =>
      have h' : (l, ([] : List Char)) = (P, pr) := h
      rw [Prod.mk.injEq] at h'
      rw [← h'.2]
      simp
    | some b =>
      have h' : (beforeLastSegment l ++ a, b) = (P, pr) := h
      rw [Prod.mk.injEq] at h'
      rw [← h'.2]
      intro hx
      obtain ⟨hls, -⟩ := splitAtFirst_some_elim hs
      refine lastSegment_no_slash (l := l) ?_ rfl
      rw [hls]
      exact List.mem_append_right _ (List.mem_cons_of_mem _ hx)

theorem splitParams_nil : splitParams [] = ([], []) := rfl

theorem normPath_head {P : List Char} (h : P = [] ∨ P.head? = some '/') :
    (normPath P).head? = some '/' := by
  rcases h with rfl | hh
  · rfl
  · obtain ⟨suf, hdec, -⟩ := dropTrailingSlashes_decomp P
    simp only [normPath]
    cases hd : dropTrailingSlashes P with
    | nil => rfl
    | cons a as =>
      rw [if_neg (by simp)]
      rw [hd] at hdec
      rw [hdec] at hh
      have : a = '/' := by
        rw [List.cons_append, List.head?_cons, Option.some.injEq] at hh
        exact hh
      rw [List.head?_cons, this]

/-! ## Reparsing a normalized URL

`normalize_url` rebuilds the URL with `urlunparse`; the key step towards
idempotence is that `urlparse` recovers exactly the components that were
fed into `urlunparse`, under the conditions the first normalization pass
guarantees (plus the amended claim's hypothesis that the parsed path
contains no semicolon). -/

theorem reparse_normal (σ ν π ρ κ : List Char)
    (hσv : σ = [] ∨ validScheme σ = true)
    (hσl : lowerStr σ = σ)
    (hπn : π ≠ [])
    (hν2 : ν ≠ [] → π.head? = some '/')
    (hνmem : ∀ c ∈ ν, ¬ c = '/' ∧ ¬ c = '?' ∧ ¬ c = '#')
    (hπq : '?' ∉ π) (hρq : '?' ∉ ρ) (hπs : ';' ∉ π) (hρsl : '/' ∉ ρ)
    (hπf : '#' ∉ π) (hρf : '#' ∉ ρ) (hκf : '#' ∉ κ)
    (hsch0 : σ = [] → ν = [] → ':' ∈ π →
      validScheme (π.takeWhile (fun c => c ≠ ':')) = false) :
    urlparseL (urlunparseL ⟨σ, ν, π, ρ, κ, []⟩) = ⟨σ, ν, π, ρ, κ, []⟩ := by
  have hnm_app : ∀ (x : Char) (a b : List Char), x ∉ a → x ∉ b → x ∉ a ++ b := by
    intro x a b ha hb hm
    rcases List.mem_append.mp hm with h | h
    · exact ha h
    · exact hb h
  have hnm_cons : ∀ (x c : Char) (l : List Char), ¬ x = c → x ∉ l → x ∉ c :: l := by
    intro x c l hc hl hm
    rcases List.mem_cons.mp hm with h | h
    · exact hc h
    · exact hl h
  have hσf : '#' ∉ σ := by
    rcases hσv with rfl | hv
    · simp
    · exact validScheme_not_mem hv (Or.inr (Or.inr (Or.inr (Or.inl rfl))))
  have hνf : '#' ∉ ν := fun hm => (hνmem _ hm).2.2 rfl
  set T := (if ρ ≠ [] then π ++ ';' :: ρ else π) with hT
  have hTne : T ≠ [] := by
    rw [hT]
    split_ifs with hρ
    · simp
    · exact hπn
  have hThead : T.head? = π.head? := by
    rw [hT]
    split_ifs with hρ
    · cases π with
      | nil => exact absurd rfl hπn
      | cons a as => rfl
    · rfl
  have hTq : '?' ∉ T := by
    rw [hT]
    split_ifs with hρ
    · exact hnm_app _ _ _ hπq (hnm_cons _ _ _ (by decide) hρq)
    · exact hπq
  have hTf : '#' ∉ T := by
    rw [hT]
    split_ifs with hρ
    · exact hnm_app _ _ _ hπf (hnm_cons _ _ _ (by decide) hρf)
    · exact hπf
  have hTsp : splitParams T = (π, ρ) := by
    rw [hT]
    split_ifs with hρ
    · exact splitParams_append hπs (fun x hx he => hρsl (he ▸ hx))
    · rw [not_not.mp hρ]
      exact splitParams_no_semi hπs
  set qtail := (if κ ≠ [] then '?' :: κ else ([] : List Char)) with hqt
  have hqf : '#' ∉ qtail := by
    rw [hqt]
    split_ifs with hκ
    · exact hnm_cons _ _ _ (by decide) hκf
    · simp
  have hq2 : splitAtFirst '?' (T ++ qtail) = (T, if κ ≠ [] then some κ else none) := by
    rw [hqt]
    split_ifs with hκ
    · exact splitAtFirst_append hTq κ
    · rw [List.append_nil]
      exact splitAtFirst_of_not_mem hTq
  have hκget : (if κ ≠ [] then some κ else none).getD [] = κ := by
    split_ifs with hκ
    · rfl
    · simp [not_not.mp hκ]
  have hXf : '#' ∉ T ++ qtail := hnm_app _ _ _ hTf hqf
  by_cases hbig : ν ≠ [] ∨ T.take 2 = ['/', '/']
  · -- the unparser emits a `//netloc` prefix
    have hTh : T.head? = some '/' := by
      rcases hbig with hν | ht2
      · rw [hThead]
        exact hν2 hν
      · cases hTv : T with
        | nil =>
          rw [hTv] at ht2
          simp at ht2
        | cons t ts =>
          rw [hTv] at ht2
          simp only [List.take_succ_cons] at ht2
          injection ht2 with h1 h2
          rw [List.head?_cons, h1]
    obtain ⟨T', hT'⟩ : ∃ T', T = '/' :: T' := by
      cases hTv : T with
      | nil => exact absurd hTv hTne
      | cons t ts =>
        rw [hTv, List.head?_cons, Option.some.injEq] at hTh
        exact ⟨ts, by rw [hTh]⟩
    have hinner : (if T ≠ [] ∧ T.head? ≠ some '/' then '/' :: T else T) = T := by
      rw [if_neg]
      intro hcon
      exact hcon.2 hTh
    have hn : urlunparseL ⟨σ, ν, π, ρ, κ, []⟩ =
        (if σ ≠ [] then σ ++ ':' :: ('/' :: '/' :: (ν ++ (T ++ qtail)))
          else ('/' :: '/' :: (ν ++ (T ++ qtail)))) := by
      simp only [urlunparseL, urlunsplitL, ← hT]
      rw [if_neg (show ¬ ([] : List Char) ≠ [] from fun hc => hc rfl),
        if_pos hbig, hinner, hqt]
      split_ifs <;> simp
    rw [hn]
    have hνpred : ∀ c ∈ ν, ((c ≠ '/' && c ≠ '?' && c ≠ '#') : Bool) = true := by
      intro c hc
      obtain ⟨h1, h2, h3⟩ := hνmem c hc
      simp [h1, h2, h3]
    have hX : (T ++ qtail).takeWhile (fun c => c ≠ '/' && c ≠ '?' && c ≠ '#') = [] := by
      rw [hT', List.cons_append, List.takeWhile_cons]
      simp
    have hRf : '#' ∉ '/' :: '/' :: (ν ++ (T ++ qtail)) :=
      hnm_cons _ _ _ (by decide) (hnm_cons _ _ _ (by decide) (hnm_app _ _ _ hνf hXf))
    have hnet : parseNetloc ('/' :: '/' :: (ν ++ (T ++ qtail))) = (ν, T ++ qtail) :=
      parseNetloc_cons hνpred hX
    by_cases hσ : σ = []
    · subst hσ
      rw [if_neg (show ¬ ([] : List Char) ≠ [] from fun hc => hc rfl)]
      have hfr : splitAtFirst '#' ('/' :: '/' :: (ν ++ (T ++ qtail)))
          = ('/' :: '/' :: (ν ++ (T ++ qtail)), none) :=
        splitAtFirst_of_not_mem hRf
      have hsch : parseScheme ('/' :: '/' :: (ν ++ (T ++ qtail)))
          = ([], '/' :: '/' :: (ν ++ (T ++ qtail))) :=
        parseScheme_head_not_alpha (by decide) _
      simp only [urlparseL, hfr, hsch, hnet, hq2, hTsp, hκget, Option.getD_none]
    · rw [if_pos hσ]
      rcases hσv with hσe | hv
      · exact absurd hσe hσ
      have hfr : splitAtFirst '#' (σ ++ ':' :: ('/' :: '/' :: (ν ++ (T ++ qtail))))
          = (σ ++ ':' :: ('/' :: '/' :: (ν ++ (T ++ qtail))), none) :=
        splitAtFirst_of_not_mem (hnm_app _ _ _ hσf
          (hnm_cons _ _ _ (by decide) hRf))
      have hsch := parseScheme_append hv ('/' :: '/' :: (ν ++ (T ++ qtail)))
      rw [hσl] at hsch
      simp only [urlparseL, hfr, hsch, hnet, hq2, hTsp, hκget, Option.getD_none]
  · -- no `//netloc` prefix is emitted
    have hν0 : ν = [] := by
      by_cases hν : ν = []
      · exact hν
      · exact absurd (Or.inl hν) hbig
    have ht2 : ¬ T.take 2 = ['/', '/'] := fun hc => hbig (Or.inr hc)
    subst hν0
    have hn : urlunparseL ⟨σ, [], π, ρ, κ, []⟩ =
        (if σ ≠ [] then σ ++ ':' :: (T ++ qtail) else (T ++ qtail)) := by
      simp only [urlunparseL, urlunsplitL, ← hT]
      rw [if_neg (show ¬ ([] : List Char) ≠ [] from fun hc => hc rfl),
        if_neg hbig, hqt]
      split_ifs <;> simp
    rw [hn]
    have hX2 : (T ++ qtail).take 2 ≠ ['/', '/'] := by
      obtain ⟨t, ts, hTc⟩ : ∃ t ts, T = t :: ts := by
        cases hTv : T with
        | nil => exact absurd hTv hTne
        | cons a b => exact ⟨a, b, rfl⟩
      rw [hTc, List.cons_append]
      cases ts with
      | nil =>
        rw [hqt]
        split_ifs with hκ
        · intro hc
          simp at hc
        · intro hc
          simp at hc
      | cons t2 ts2 =>
        intro hc
        apply ht2
        rw [hTc]
        simp only [List.cons_append, List.take_succ_cons, List.take_zero] at hc ⊢
        exact hc
    have hnet : parseNetloc (T ++ qtail) = ([], T ++ qtail) := parseNetloc_other hX2
    by_cases hσ : σ = []
    · subst hσ
      rw [if_neg (show ¬ ([] : List Char) ≠ [] from fun hc => hc rfl)]
      have hfr : splitAtFirst '#' (T ++ qtail) = (T ++ qtail, none) :=
        splitAtFirst_of_not_mem hXf
      have hsch : parseScheme (T ++ qtail) = ([], T ++ qtail) := by
        by_cases hπcol : ':' ∈ π
        · apply parseScheme_pre_invalid
          have hbad := hsch0 rfl rfl hπcol
          have hstab : ((T ++ qtail).takeWhile (fun c => c ≠ ':'))
              = π.takeWhile (fun c => c ≠ ':') := by
            rw [hT]
            split_ifs with hρ
            · rw [List.append_assoc]
              exact takeWhile_append_of_bad ⟨':', hπcol, by simp⟩ _
            · exact takeWhile_append_of_bad ⟨':', hπcol, by simp⟩ _
          rw [hstab]
          exact hbad
        · have hπall : ∀ c ∈ π, decide (c ≠ ':') = true := by
            intro c hc
            rw [decide_eq_true_eq]
            exact fun he => hπcol (he ▸ hc)
          rw [hT]
          split_ifs with hρ
          · apply parseScheme_mem_bad (x := ';')
            · rw [List.append_assoc, List.cons_append, takeWhile_append_all hπall,
                List.takeWhile_cons]
              simp
            · decide
          · rw [hqt]
            split_ifs with hκ
            · apply parseScheme_mem_bad (x := '?')
              · rw [takeWhile_append_all hπall, List.takeWhile_cons]
                simp
              · decide
            · rw [List.append_nil]
              exact parseScheme_no_colon hπcol
      simp only [urlparseL, hfr, hsch, hnet, hq2, hTsp, hκget, Option.getD_none]
    · rw [if_pos hσ]
      rcases hσv with hσe | hv
      · exact absurd hσe hσ
      have hfr : splitAtFirst '#' (σ ++ ':' :: (T ++ qtail))
          = (σ ++ ':' :: (T ++ qtail), none) :=
        splitAtFirst_of_not_mem (hnm_app _ _ _ hσf (hnm_cons _ _ _ (by decide) hXf))
      have hsch := parseScheme_append hv (T ++ qtail)
      rw [hσl] at hsch
      simp only [urlparseL, hfr, hsch, hnet, hq2, hTsp, hκget, Option.getD_none]

/-! ## Idempotence of `normalize_url` on semicolon-free paths -/

theorem splitParams_of_splitQ_nil {rst2 Xq P pr : List Char} {qopt : Option (List Char)}
    (h3 : splitAtFirst '?' rst2 = (Xq, qopt)) (hsp : splitParams Xq = (P, pr))
    (h : rst2 = [] ∨ ∃ z, rst2 = '?' :: z) : P = [] := by
  rcases h with hr | ⟨z, hr⟩
  · rw [hr] at h3
    have h3' : (([] : List Char), (none : Option (List Char))) = (Xq, qopt) := by
      rw [← h3]
      rfl
    rw [Prod.mk.injEq] at h3'
    rw [← h3'.1] at hsp
    have hsp' : (([] : List Char), ([] : List Char)) = (P, pr) := by
      rw [← hsp]
      rfl
    rw [Prod.mk.injEq] at hsp'
    exact hsp'.1.symm
  · rw [hr] at h3
    have h3' : (([] : List Char), some z) = (Xq, qopt) := by
      rw [← h3]
      show ([], some z) = splitAtFirst '?' ('?' :: z)
      unfold splitAtFirst
      rw [if_pos rfl]
    rw [Prod.mk.injEq] at h3'
    rw [← h3'.1] at hsp
    have hsp' : (([] : List Char), ([] : List Char)) = (P, pr) := by
      rw [← hsp]
      rfl
    rw [Prod.mk.injEq] at hsp'
    exact hsp'.1.symm

theorem splitQ_splitParams_head {rst2 Xq P pr : List Char} {qopt : Option (List Char)}
    (h3 : splitAtFirst '?' rst2 = (Xq, qopt)) (hsp : splitParams Xq = (P, pr))
    (hP0 : P ≠ []) : P.head? = rst2.head? := by
  obtain ⟨t1, hXq⟩ := splitParams_prefix hsp
  have hXq0 : Xq ≠ [] := fun he => hP0 (List.append_eq_nil.mp (he ▸ hXq).symm).1
  have h1 : Xq.head? = P.head? := by
    rw [hXq]
    exact List.head?_append_of_ne_nil _ hP0
  have h2 : rst2.head? = Xq.head? := by
    cases qopt with
    | none =>
      obtain ⟨hXeq, -⟩ := splitAtFirst_none_elim h3
      rw [hXeq]
    | some q0 =>
      obtain ⟨hXeq, -⟩ := splitAtFirst_some_elim h3
      rw [hXeq]
      exact List.head?_append_of_ne_nil _ hXq0
  rw [h1] at h2
  exact h2.symm

theorem normalizeL_idem {l : List Char} (H : ';' ∉ (urlparseL l).path) :
    normalizeL (normalizeL l) = normalizeL l := by
  obtain ⟨l0, fropt, h0⟩ : ∃ a b, splitAtFirst '#' l = (a, b) := ⟨_, _, rfl⟩
  obtain ⟨s, rst1, hps⟩ : ∃ a b, parseScheme l0 = (a, b) := ⟨_, _, rfl⟩
  obtain ⟨nl, rst2, hpn⟩ : ∃ a b, parseNetloc rst1 = (a, b) := ⟨_, _, rfl⟩
  obtain ⟨Xq, qopt, h3⟩ : ∃ a b, splitAtFirst '?' rst2 = (a, b) := ⟨_, _, rfl⟩
  obtain ⟨P, pr, hsp⟩ : ∃ a b, splitParams Xq = (a, b) := ⟨_, _, rfl⟩
  have hparse : urlparseL l = ⟨s, nl, P, pr, qopt.getD [], fropt.getD []⟩ := by
    simp only [urlparseL, h0, hps, hpn, h3, hsp]
  rw [hparse] at H
  have HP : ';' ∉ P := H
  have hnorm : normalizeL l = urlunparseL ⟨lowerStr s, lowerStr nl, normPath P, pr,
      urlencodeL (sortPairs (parseQsl (qopt.getD []))), []⟩ := by
    simp only [normalizeL, hparse]
  have hl0f : '#' ∉ l0 := by
    cases fropt with
    | none =>
      obtain ⟨hl0, hnm⟩ := splitAtFirst_none_elim h0
      rw [hl0]
      exact hnm
    | some fr => exact (splitAtFirst_some_elim h0).2
  have hsub1 : ∀ x ∈ rst1, x ∈ l0 := by
    rcases parseScheme_elim hps with ⟨-, hr, -⟩ | ⟨pre, -, -, hleq⟩
    · intro x hx
      rw [hr] at hx
      exact hx
    · intro x hx
      rw [hleq]
      exact List.mem_append_right _ (List.mem_cons_of_mem _ hx)
  have hsub2 : ∀ x ∈ rst2, x ∈ rst1 := by
    rcases parseNetloc_elim hpn with ⟨-, hr, -⟩ | ⟨rest, hleq, -, hr⟩
    · intro x hx
      rw [hr] at hx
      exact hx
    · intro x hx
      rw [hr] at hx
      rw [hleq]
      exact List.mem_cons_of_mem _ (List.mem_cons_of_mem _ (List.drop_subset _ _ hx))
  have hsub3 : ∀ x ∈ Xq, x ∈ rst2 := by
    cases qopt with
    | none =>
      obtain ⟨hXeq, -⟩ := splitAtFirst_none_elim h3
      intro x hx
      rw [hXeq] at hx
      exact hx
    | some q0 =>
      obtain ⟨hXeq, -⟩ := splitAtFirst_some_elim h3
      intro x hx
      rw [hXeq]
      exact List.mem_append_left _ hx
  have hsub4 : ∀ x ∈ P, x ∈ Xq := by
    obtain ⟨t, hXeq⟩ := splitParams_prefix hsp
    intro x hx
    rw [hXeq]
    exact List.mem_append_left _ hx
  have hXqq : '?' ∉ Xq := by
    cases qopt with
    | none => exact fun hm => (splitAtFirst_none_elim h3).2 (hsub3 _ hm)
    | some q0 => exact (splitAtFirst_some_elim h3).2
  have hsubP : ∀ x ∈ P, x ∈ l0 := fun x hx => hsub1 _ (hsub2 _ (hsub3 _ (hsub4 _ hx)))
  have hsubpr : ∀ x ∈ pr, x ∈ l0 := fun x hx =>
    hsub1 _ (hsub2 _ (hsub3 _ (splitParams_params_mem hsp hx)))
  have hπq : '?' ∉ normPath P := by
    intro hm
    rcases mem_normPath hm with h | h
    · exact hXqq (hsub4 _ h)
    · exact absurd h (by decide)
  have hπf : '#' ∉ normPath P := by
    intro hm
    rcases mem_normPath hm with h | h
    · exact hl0f (hsubP _ h)
    · exact absurd h (by decide)
  have hπs : ';' ∉ normPath P := by
    intro hm
    rcases mem_normPath hm with h | h
    · exact HP h
    · exact absurd h (by decide)
  have hρq : '?' ∉ pr := fun hm => hXqq (splitParams_params_mem hsp hm)
  have hρf : '#' ∉ pr := fun hm => hl0f (hsubpr _ hm)
  have hρsl : '/' ∉ pr := splitParams_params_no_slash hsp
  have hκf : '#' ∉ urlencodeL (sortPairs (parseQsl (qopt.getD []))) := fun hm =>
    urlencodeL_no_mem hm (Or.inl rfl)
  have hσv : lowerStr s = [] ∨ validScheme (lowerStr s) = true := by
    rcases parseScheme_elim hps with ⟨hs0, -, -⟩ | ⟨pre, hv, hseq, -⟩
    · left
      rw [hs0]
      rfl
    · right
      rw [hseq, lowerStr_idem]
      exact validScheme_lower hv
  have hν2 : lowerStr nl ≠ [] → (normPath P).head? = some '/' := by
    intro hν
    have hnl : nl ≠ [] := fun he => hν (by rw [he]; rfl)
    rcases parseNetloc_elim hpn with ⟨hnl0, -, -⟩ | ⟨rest, -, hnleq, hr⟩
    · exact absurd hnl0 hnl
    · have hr2' : rst2 = rest.dropWhile (fun c => c ≠ '/' && c ≠ '?' && c ≠ '#') := by
        rw [hr, hnleq, ← dropWhile_eq_drop_len]
      apply normPath_head
      rcases dropWhile_head_false (p := fun c => c ≠ '/' && c ≠ '?' && c ≠ '#') rest
        with hdw | ⟨c, z, hdw, hpc⟩
      · rw [← hr2'] at hdw
        exact Or.inl (splitParams_of_splitQ_nil h3 hsp (Or.inl hdw))
      · rw [← hr2'] at hdw
        have hc3 : c = '/' ∨ c = '?' ∨ c = '#' := by
          have himp : ¬c = '/' → ¬c = '?' → c = '#' := by simpa using hpc
          by_cases e1 : c = '/'
          · exact Or.inl e1
          · by_cases e2 : c = '?'
            · exact Or.inr (Or.inl e2)
            · exact Or.inr (Or.inr (himp e1 e2))
        rcases hc3 with rfl | rfl | rfl
        · by_cases hP0 : P = []
          · exact Or.inl hP0
          · right
            rw [splitQ_splitParams_head h3 hsp hP0, hdw, List.head?_cons]
        · exact Or.inl (splitParams_of_splitQ_nil h3 hsp (Or.inr ⟨z, hdw⟩))
        · exact absurd (hsub1 _ (hsub2 _ (by rw [hdw]; exact List.mem_cons_self _ _))) hl0f
  have hνmem : ∀ c ∈ lowerStr nl, ¬ c = '/' ∧ ¬ c = '?' ∧ ¬ c = '#' := by
    intro c hc
    obtain ⟨c0, hc0, rfl⟩ := List.mem_map.mp hc
    have hc0nl : ∀ d ∈ nl, ¬ d = '/' ∧ ¬ d = '?' ∧ ¬ d = '#' := by
      rcases parseNetloc_elim hpn with ⟨hnl0, -, -⟩ | ⟨rest, -, hnleq, -⟩
      · rw [hnl0]
        simp
      · intro d hd
        rw [hnleq] at hd
        have hmtw := List.mem_takeWhile_imp hd
        rw [Bool.and_eq_true, Bool.and_eq_true] at hmtw
        exact ⟨by simpa using hmtw.1.1, by simpa using hmtw.1.2, by simpa using hmtw.2⟩
    obtain ⟨h1, h2, h3x⟩ := hc0nl c0 hc0
    refine ⟨lowerChar_ne ?_ h1, lowerChar_ne ?_ h2, lowerChar_ne ?_ h3x⟩ <;> decide
  have hsch0 : lowerStr s = [] → lowerStr nl = [] → ':' ∈ normPath P →
      validScheme ((normPath P).takeWhile (fun c => c ≠ ':')) = false := by
    intro hσ0 hν0 hπcol
    have hnl0 : nl = [] := by
      cases nl with
      | nil => rfl
      | cons a as => simp [lowerStr] at hν0
    rcases parseScheme_elim hps with ⟨hs0, hr1, hrej⟩ | ⟨pre, hv, hseq, -⟩
    swap
    · exfalso
      have hs0 : s = [] := by
        cases s with
        | nil => rfl
        | cons a as => simp [lowerStr] at hσ0
      rw [hs0] at hseq
      have hpre0 : pre = [] := List.map_eq_nil_iff.mp hseq.symm
      rw [hpre0] at hv
      simp [validScheme] at hv
    · rcases parseNetloc_elim hpn with ⟨-, hr2l, -⟩ | ⟨rest, -, hnleq, hr2⟩
      · -- no netloc: the invalid scheme prefix of the input survives in the path
        have hcolP : ':' ∈ P := by
          rcases mem_normPath hπcol with h | h
          · exact h
          · exact absurd h (by decide)
        by_cases hdt : dropTrailingSlashes P = []
        · exfalso
          rw [show normPath P = ['/'] from by simp only [normPath]; rw [if_pos hdt]]
            at hπcol
          simp at hπcol
        · have hπeq : normPath P = dropTrailingSlashes P := by
            simp only [normPath]
            rw [if_neg hdt]
          obtain ⟨suf, hPdec, -⟩ := dropTrailingSlashes_decomp P
          obtain ⟨t1, hXq⟩ := splitParams_prefix hsp
          obtain ⟨t2, hrst2⟩ : ∃ t2, rst2 = Xq ++ t2 := by
            cases qopt with
            | none =>
              obtain ⟨hXeq, -⟩ := splitAtFirst_none_elim h3
              exact ⟨[], by rw [List.append_nil]; exact hXeq.symm⟩
            | some q0 =>
              obtain ⟨hXeq, -⟩ := splitAtFirst_some_elim h3
              exact ⟨'?' :: q0, hXeq⟩
          have hl0 : l0 = normPath P ++ (suf ++ (t1 ++ t2)) := by
            rw [← hr1, ← hr2l, hrst2, hXq]
            conv_lhs => rw [hPdec]
            rw [hπeq]
            simp [List.append_assoc]
          have hstab : l0.takeWhile (fun c => c ≠ ':')
              = (normPath P).takeWhile (fun c => c ≠ ':') := by
            rw [hl0]
            exact takeWhile_append_of_bad ⟨':', hπcol, by simp⟩ _
          have hcoll : ':' ∈ l0 := by
            rw [hl0]
            exact List.mem_append_left _ hπcol
          have hlt : (l0.takeWhile (fun c => c ≠ ':')).length < l0.length :=
            takeWhile_length_lt ⟨':', hcoll, by simp⟩
          cases hvv : validScheme (l0.takeWhile (fun c => c ≠ ':')) with
          | false =>
            rw [← hstab]
            exact hvv
          | true => exact absurd ⟨hlt, hvv⟩ hrej
      · -- empty netloc parsed from a `//`-prefixed input
        have hr2' : rst2 = rest.dropWhile (fun c => c ≠ '/' && c ≠ '?' && c ≠ '#') := by
          rw [hr2, hnleq, ← dropWhile_eq_drop_len]
        rcases dropWhile_head_false (p := fun c => c ≠ '/' && c ≠ '?' && c ≠ '#') rest
          with hdw | ⟨c, z, hdw, hpc⟩
        · rw [← hr2'] at hdw
          exfalso
          have hP0 := splitParams_of_splitQ_nil h3 hsp (Or.inl hdw)
          rw [hP0, show normPath [] = ['/'] from rfl] at hπcol
          simp at hπcol
        · rw [← hr2'] at hdw
          have hc3 : c = '/' ∨ c = '?' ∨ c = '#' := by
            have himp : ¬c = '/' → ¬c = '?' → c = '#' := by simpa using hpc
            by_cases e1 : c = '/'
            · exact Or.inl e1
            · by_cases e2 : c = '?'
              · exact Or.inr (Or.inl e2)
              · exact Or.inr (Or.inr (himp e1 e2))
          rcases hc3 with rfl | rfl | rfl
          · have hπh : (normPath P).head? = some '/' := by
              apply normPath_head
              by_cases hP0 : P = []
              · exact Or.inl hP0
              · right
                rw [splitQ_splitParams_head h3 hsp hP0, hdw, List.head?_cons]
            obtain ⟨π', hπ'⟩ : ∃ π', normPath P = '/' :: π' := by
              cases hnp : normPath P with
              | nil => exact absurd hnp (normPath_ne_nil P)
              | cons a as =>
                rw [hnp, List.head?_cons, Option.some.injEq] at hπh
                exact ⟨as, by rw [hπh]⟩
            rw [hπ']
            exact validScheme_takeWhile_not_alpha (by decide) π'
          · exfalso
            have hP0 := splitParams_of_splitQ_nil h3 hsp (Or.inr ⟨z, hdw⟩)
            rw [hP0, show normPath [] = ['/'] from rfl] at hπcol
            simp at hπcol
          · exact absurd (hsub1 _ (hsub2 _ (by rw [hdw]; exact List.mem_cons_self _ _)))
              hl0f
  rw [hnorm]
  have hrep := reparse_normal (lowerStr s) (lowerStr nl) (normPath P) pr
    (urlencodeL (sortPairs (parseQsl (qopt.getD [])))) hσv (lowerStr_idem s)
    (normPath_ne_nil P) hν2 hνmem hπq hρq hπs hρsl hπf hρf hκf hsch0
  simp only [normalizeL, hrep]
  rw [lowerStr_idem, lowerStr_idem, normPath_idem, query_roundtrip]

/-- C8 (counterexample): `normalize_url` is not idempotent.  For the URL
`http://h/a/;q/` the first pass strips the trailing slash, producing
`http://h/a/;q`; reparsing that string finds a `;` in its (new) last path
segment, so the second pass splits `q` off as path parameters, strips the
now-trailing slash of `/a/`, and reassembles `http://h/a;q`. -/
theorem normalize_url_not_idempotent_counterexample :
    ¬ normalize_url (normalize_url "http://h/a/;q/") = normalize_url "http://h/a/;q/" := by
  decide

/-- C8 (amended): `normalize_url` is idempotent on every URL whose parsed
path contains no semicolon, i.e. whose path has no semicolon outside the
last segment's parameter part; the unamended claim fails only when a `;`
sits in the path and a stripped trailing slash moves it into the last
segment on reparse. -/
theorem normalize_url_idem (u : String) (H : ';' ∉ (urlparseL u.data).path) :
    normalize_url (normalize_url u) = normalize_url u :=
  congrArg String.mk (normalizeL_idem H)

theorem normalize_url_idem_witness :
    normalize_url (normalize_url "http://ExampleHost/a/b/?b=2&a=1#sec")
      = normalize_url "http://ExampleHost/a/b/?b=2&a=1#sec" :=
  normalize_url_idem _ (by decide)

end Crawler
